import Mathlib

/-!
Shallow embedding of `src/Set.h`: an ordered-set container backed by an AA
tree with parent back-references (`PreviousNode`) and a parent-pointer based
bidirectional iterator.

Nodes are modelled by the inductive type `AA.ATree`.  Each node carries, in
addition to its `Value`, `Level`, and the two owned children, the heap
address it was allocated at (`addr`) and its `PreviousNode` field (`prev`),
stored as the address of the parent node (`none` = null).  Mutating
operations thread an allocation counter `c`; each `new` in the source is
modelled by consuming a fresh address from the counter, and each pointer
assignment to a `PreviousNode` field is mirrored by a functional update.
The member `Size_` is threaded explicitly as `sz`.

The iterator holds the address of its current node (`none` = the end
sentinel).  Pointer dereferences become address lookups from the root;
an invalid access (dangling pointer, which would be undefined behaviour in
the source) is modelled by the outer `none` of an `Option (Option Nat)`
result, while `some none` is the end sentinel and `some (some a)` a valid
position at address `a`.
-/

namespace AA

/-- A node graph: `nil` is the null pointer; `node value level addr prev
left right` mirrors `TNode` with `Value`, `Level`, the allocation address,
`PreviousNode` (as an address), `LeftNode` and `RightNode`. -/
inductive ATree : Type where
  | nil : ATree
  | node (value : Int) (level : Nat) (addr : Nat) (prev : Option Nat)
      (left right : ATree) : ATree
deriving DecidableEq, Repr

namespace ATree

/-- Model of `Level` of a possibly-null node; a null subtree counts as level 0. -/
def lvl : ATree → Nat
  | .nil => 0
  | .node _ l _ _ _ _ => l

/-- Model of `PreviousNode` field of a possibly-null node. -/
def prevOf : ATree → Option Nat
  | .nil => none
  | .node _ _ _ p _ _ => p

/-- Address of a possibly-null node (`none` for null). -/
def addrOf : ATree → Option Nat
  | .nil => none
  | .node _ _ a _ _ _ => a

/-- Model of `RightNode` of a possibly-null node. -/
def rightOf : ATree → ATree
  | .nil => .nil
  | .node _ _ _ _ _ r => r

/-- Assignment `t->PreviousNode = p` (no-op on null, as the source always
guards these writes with a null check). -/
def setPrev : ATree → Option Nat → ATree
  | .nil, _ => .nil
  | .node v l a _ lt rt, p => .node v l a p lt rt

end ATree

open ATree

/-- Model of `Set::Skew`.  Returns the subtree unchanged unless the left child
exists and has the node's level; otherwise allocates the two replacement
nodes (the inner one at address `c`, the new subtree root at `c+1`,
mirroring the two `new` expressions), rewires the children, and performs
exactly the `PreviousNode` assignments of the source. -/
def Skew (t : ATree) (c : Nat) : ATree × Nat :=
  match t with
  | .nil => (.nil, c)
  | .node v lv a p l r =>
    match l with
    | .nil => (.node v lv a p .nil r, c)
    | .node lval llev la lp ll lr =>
      if lv ≠ llev then (.node v lv a p (.node lval llev la lp ll lr) r, c)
      else
        let inner : ATree :=
          .node v lv c (some (c+1)) (setPrev lr (some c)) (setPrev r (some c))
        (.node lval llev (c+1) p (setPrev ll (some (c+1))) inner, c+2)

/-- Model of `Set::Split`.  Returns the subtree unchanged unless `right.right`
exists with the node's level; otherwise allocates the replacement pair
(inner node at `c`, new subtree root at `c+1` with level `right.level + 1`)
and performs the source's `PreviousNode` assignments. -/
def Split (t : ATree) (c : Nat) : ATree × Nat :=
  match t with
  | .nil => (.nil, c)
  | .node v lv a p l r =>
    match r with
    | .nil => (.node v lv a p l .nil, c)
    | .node rv rlev ra rp rl rr =>
      match rr with
      | .nil => (.node v lv a p l (.node rv rlev ra rp rl .nil), c)
      | .node rrv rrlev rra rrp rrl rrr =>
        if lv ≠ rrlev then
          (.node v lv a p l (.node rv rlev ra rp rl (.node rrv rrlev rra rrp rrl rrr)), c)
        else
          let inner : ATree :=
            .node v lv c (some (c+1)) (setPrev l (some c)) (setPrev rl (some c))
          (.node rv (rlev+1) (c+1) p inner
            (setPrev (.node rrv rrlev rra rrp rrl rrr) (some (c+1))), c+2)

/-- Model of `Set::DecreaseLevel`: only when both children exist, lower the node's
level to `min(left.level, right.level) + 1` if that is smaller, and cap the
right child's level at the new level. -/
def DecreaseLevel (t : ATree) : ATree :=
  match t with
  | .nil => .nil
  | .node v lv a p l r =>
    match l, r with
    | .node lval llev la lp ll lr, .node rv rlev ra rp rl rr =>
      let expected := min llev rlev + 1
      if expected < lv then
        .node v expected a p (.node lval llev la lp ll lr)
          (.node rv (if expected < rlev then expected else rlev) ra rp rl rr)
      else .node v lv a p (.node lval llev la lp ll lr) (.node rv rlev ra rp rl rr)
    | _, _ => t

/-- Value of the leftmost node of the tree `node _ v _ _ l _` whose fields
are given; implements the loop of `Set::Successor` after the initial step
to the right child. -/
def leftmostFrom (v : Int) : ATree → Int
  | .nil => v
  | .node v' _ _ _ l' _ => leftmostFrom v' l'

/-- Value of the rightmost node; implements the loop of `Set::Predecessor`
after the initial step to the left child. -/
def rightmostFrom (v : Int) : ATree → Int
  | .nil => v
  | .node v' _ _ _ _ r' => rightmostFrom v' r'

/-- Model of `Set::Insert` (the private recursive member).  Takes and returns the
allocation counter and the member `Size_`. -/
def InsertN (t : ATree) (x : Int) (c sz : Nat) : ATree × Nat × Nat :=
  match t with
  | .nil => (.node x 1 c none .nil .nil, c+1, sz+1)
  | .node v lv a p l r =>
    if x < v then
      let res := InsertN l x c sz
      let t1 : ATree := .node v lv a p (setPrev res.1 (some a)) r
      let s1 := Skew t1 res.2.1
      let s2 := Split s1.1 s1.2
      (s2.1, s2.2, res.2.2)
    else if v < x then
      let res := InsertN r x c sz
      let t1 : ATree := .node v lv a p l (setPrev res.1 (some a))
      let s1 := Skew t1 res.2.1
      let s2 := Split s1.1 s1.2
      (s2.1, s2.2, res.2.2)
    else
      let s1 := Skew (.node v lv a p l r) c
      let s2 := Split s1.1 s1.2
      (s2.1, s2.2, sz)

/-- The assignment `node->RightNode = Skew(node->RightNode)` (a no-op on a
null node, matching the source where a null `currentNode` cannot reach this
line). -/
def skewRightChild (u : ATree) (c : Nat) : ATree × Nat :=
  match u with
  | .nil => (.nil, c)
  | .node v lv a p l r =>
    let s := Skew r c
    (.node v lv a p l s.1, s.2)

/-- The assignment `node->RightNode = Split(node->RightNode)`. -/
def splitRightChild (u : ATree) (c : Nat) : ATree × Nat :=
  match u with
  | .nil => (.nil, c)
  | .node v lv a p l r =>
    let s := Split r c
    (.node v lv a p l s.1, s.2)

/-- The guarded assignment
`if (node->RightNode != nullptr) node->RightNode->RightNode = Skew(...)`. -/
def skewRightRight (u : ATree) (c : Nat) : ATree × Nat :=
  match u with
  | .nil => (.nil, c)
  | .node v lv a p l r =>
    let s := skewRightChild r c
    (.node v lv a p l s.1, s.2)

/-- The rebalancing cascade at the end of `Set::Erase` (lines 354-362):
`DecreaseLevel`, `Skew(node)`, `node.right = Skew(node.right)`, then
`node.right.right = Skew(node.right.right)` when `node.right` exists,
`Split(node)`, `node.right = Split(node.right)`. -/
def EraseFixup (t : ATree) (c : Nat) : ATree × Nat :=
  let s1 := Skew (DecreaseLevel t) c
  let s2 := skewRightChild s1.1 s1.2
  let s3 := skewRightRight s2.1 s2.2
  let s4 := Split s3.1 s3.2
  splitRightChild s4.1 s4.2

/-- Model of `Set::Erase` (the private recursive member).  A found leaf is deleted
and returned immediately (no fixup, mirroring the early `return nullptr`);
all other paths run `EraseFixup` on the way out. -/
def EraseN (t : ATree) (x : Int) (c sz : Nat) : ATree × Nat × Nat :=
  match t with
  | .nil => (.nil, c, sz)
  | .node v lv a p l r =>
    if x < v then
      let res := EraseN l x c sz
      let f := EraseFixup (.node v lv a p (setPrev res.1 (some a)) r) res.2.1
      (f.1, f.2, res.2.2)
    else if v < x then
      let res := EraseN r x c sz
      let f := EraseFixup (.node v lv a p l (setPrev res.1 (some a))) res.2.1
      (f.1, f.2, res.2.2)
    else
      match l, r with
      | .nil, .nil => (.nil, c, sz - 1)
      | .nil, .node rv rlev ra rp rl rr =>
        let sv := leftmostFrom rv rl
        let res := EraseN (.node rv rlev ra rp rl rr) sv c sz
        let f := EraseFixup (.node sv lv a p .nil (setPrev res.1 (some a))) res.2.1
        (f.1, f.2, res.2.2)
      | .node lval llev la lp ll lr, _ =>
        let pv := rightmostFrom lval lr
        let res := EraseN (.node lval llev la lp ll lr) pv c sz
        let f := EraseFixup (.node pv lv a p (setPrev res.1 (some a)) r) res.2.1
        (f.1, f.2, res.2.2)

/-- The container `Set`: `Root_`, `Size_`, plus the allocation counter of
the modelled heap. -/
structure SetS : Type where
  root : ATree
  ssize : Nat
  ctr : Nat
deriving DecidableEq, Repr

/-- Model of `Set()` — the default-constructed empty set. -/
def SetS.empty : SetS := ⟨.nil, 0, 0⟩

/-- Model of `Set::insert`: `Root_ = Insert(Root_, v)`. -/
def sinsert (s : SetS) (x : Int) : SetS :=
  let r := InsertN s.root x s.ctr s.ssize
  ⟨r.1, r.2.2, r.2.1⟩

/-- Model of `Set::erase`: `Root_ = Erase(Root_, v)`. -/
def serase (s : SetS) (x : Int) : SetS :=
  let r := EraseN s.root x s.ctr s.ssize
  ⟨r.1, r.2.2, r.2.1⟩

/-- Model of `Set::size`. -/
def SetS.size (s : SetS) : Nat := s.ssize

/-- Model of `Set::empty`. -/
def SetS.isEmpty (s : SetS) : Bool := s.ssize = 0

/-! ### The iterator

`TIterator` is modelled as the address of its current node, `none` being
the end sentinel.  A pointer dereference becomes an address lookup from the
root. -/

/-- Find the (sub)tree rooted at the node with address `x`. -/
def lookupA : ATree → Nat → Option ATree
  | .nil, _ => none
  | .node v lv a p l r, x =>
    if a = x then some (.node v lv a p l r) else
      match lookupA l x with
      | some u => some u
      | none => lookupA r x

/-- Number of nodes in a subtree (used as loop fuel for the parent
climbs). -/
def countA : ATree → Nat
  | .nil => 0
  | .node _ _ _ _ l r => countA l + countA r + 1

/-- Address of the leftmost node of a subtree (the loop of
`Set::Successor` / `Set::begin`). -/
def leftmostAddr : ATree → Option Nat
  | .nil => none
  | .node _ _ a _ l _ =>
    match l with
    | .nil => some a
    | .node v' lv' a' p' l' r' => leftmostAddr (.node v' lv' a' p' l' r')

/-- Address of the rightmost node of a subtree (the loop of
`Set::Predecessor` / `--end()`). -/
def rightmostAddr : ATree → Option Nat
  | .nil => none
  | .node _ _ a _ _ r =>
    match r with
    | .nil => some a
    | .node v' lv' a' p' l' r' => rightmostAddr (.node v' lv' a' p' l' r')

/-- The ascent loop of `TIterator::operator++`:
`while (prev != null && prev.Value < cur.Value) cur = prev; cur = cur.prev`.
Arguments are the current node's `Value` and `PreviousNode`; each step
dereferences the parent address from the root.  `none` = invalid memory
access or exhausted fuel (impossible on well-formed trees), `some none` =
the end sentinel, `some (some b)` = the node at address `b`. -/
def climbIncr (root : ATree) : Nat → Int → Option Nat → Option (Option Nat)
  | 0, _, _ => none
  | _ + 1, _, none => some none
  | fuel + 1, curV, some pa =>
    match lookupA root pa with
    | some (.node pv _ _ pp _ _) =>
      if pv < curV then climbIncr root fuel pv pp else some (some pa)
    | _ => none

/-- The ascent loop of `TIterator::operator--`:
`while (prev != null && cur.Value < prev.Value) cur = prev; cur = cur.prev`. -/
def climbDecr (root : ATree) : Nat → Int → Option Nat → Option (Option Nat)
  | 0, _, _ => none
  | _ + 1, _, none => some none
  | fuel + 1, curV, some pa =>
    match lookupA root pa with
    | some (.node pv _ _ pp _ _) =>
      if curV < pv then climbDecr root fuel pv pp else some (some pa)
    | _ => none

/-- Model of `TIterator::operator++` on the iterator at address `a` (the source
dereferences `IteratorNode_`, so the end sentinel is not a legal input):
with a right child, move to `Successor` (leftmost of the right subtree);
otherwise run the ascent loop. -/
def iterIncr (root : ATree) (a : Nat) : Option (Option Nat) :=
  match lookupA root a with
  | some (.node v _ _ p _ r) =>
    match r with
    | .nil => climbIncr root (countA root + 1) v p
    | .node rv rlv ra rp rl rr =>
      match leftmostAddr (.node rv rlv ra rp rl rr) with
      | some b => some (some b)
      | none => none
  | _ => none

/-- Model of `TIterator::operator--`.  From the end sentinel: move to `Root_` and
then to its rightmost node (staying at end for an empty tree).  Otherwise:
with a left child, move to `Predecessor`; else run the ascent loop. -/
def iterDecr (root : ATree) (oa : Option Nat) : Option (Option Nat) :=
  match oa with
  | none =>
    match root with
    | .nil => some none
    | .node v lv a p l r =>
      match rightmostAddr (.node v lv a p l r) with
      | some b => some (some b)
      | none => none
  | some a =>
    match lookupA root a with
    | some (.node v _ _ p l _) =>
      match l with
      | .nil => climbDecr root (countA root + 1) v p
      | .node lv' llv la lp ll lr =>
        match rightmostAddr (.node lv' llv la lp ll lr) with
        | some b => some (some b)
        | none => none
    | _ => none

/-- Model of `TIterator::operator*`: the `Value` at the iterator's node. -/
def derefA (root : ATree) (a : Nat) : Option Int :=
  match lookupA root a with
  | some (.node v _ _ _ _ _) => some v
  | _ => none

/-- Model of `Set::begin`: the leftmost node, or end for an empty tree. -/
def beginA (s : SetS) : Option Nat := leftmostAddr s.root

/-- The loop of `Set::lower_bound`, descending from subtree `t` of `root`:
while the current value is `< wanted`, go right, or — when there is no
right child — return `++iterator(this, cur)`; otherwise go left while a
left child exists and `wanted <` the current value, else break. -/
def lowerBoundLoop (root : ATree) (w : Int) : ATree → Option (Option Nat)
  | .nil => some none
  | .node v _ a _ l r =>
    if v < w then
      match r with
      | .nil => iterIncr root a
      | .node rv rlv ra rp rl rr => lowerBoundLoop root w (.node rv rlv ra rp rl rr)
    else
      match l with
      | .nil => some (some a)
      | .node lv' llv la lp ll lr =>
        if w < v then lowerBoundLoop root w (.node lv' llv la lp ll lr)
        else some (some a)

/-- Model of `Set::lower_bound`. -/
def lowerBoundA (s : SetS) (w : Int) : Option (Option Nat) :=
  lowerBoundLoop s.root w s.root

/-- Model of `Set::find`: `lower_bound`, then return it only when it is not `end()`
and its value is neither `< wanted` nor `> wanted`. -/
def findA (s : SetS) (w : Int) : Option (Option Nat) :=
  match lowerBoundA s w with
  | some (some a) =>
    match derefA s.root a with
    | some v => if ¬v < w ∧ ¬w < v then some (some a) else some none
    | none => none
  | other => other

/-! ### Observations of the tree -/

/-- In-order list of stored values. -/
def inorderV : ATree → List Int
  | .nil => []
  | .node v _ _ _ l r => inorderV l ++ v :: inorderV r

/-- In-order list of node addresses (position `i` holds the address of the
`i`-th smallest element). -/
def addrsA : ATree → List Nat
  | .nil => []
  | .node _ _ a _ l r => addrsA l ++ a :: addrsA r

/-- Height of the tree (nodes on a longest root-leaf path). -/
def heightA : ATree → Nat
  | .nil => 0
  | .node _ _ _ _ l r => max (heightA l) (heightA r) + 1

/-- All values of the subtree satisfy `f`. -/
def allB (f : Int → Bool) : ATree → Bool
  | .nil => true
  | .node v _ _ _ l r => f v && allB f l && allB f r

/-- Binary-search-tree ordering on values. -/
def bstB : ATree → Bool
  | .nil => true
  | .node v _ _ _ l r =>
    allB (fun x => decide (x < v)) l && allB (fun x => decide (v < x)) r &&
      bstB l && bstB r

/-- The AA-tree level invariants of the specification: an absent subtree
counts as level 0, a leaf has level 1, `left.level = level - 1`,
`right.level ∈ {level, level - 1}`, and `right.right.level < level`. -/
def aaInvB : ATree → Bool
  | .nil => true
  | .node _ lv _ _ l r =>
    (decide (l = .nil ∧ r = .nil → lv = 1)) &&
      (decide (lvl l = lv - 1)) &&
      (decide (lvl r = lv ∨ lvl r = lv - 1)) &&
      (decide (lvl (rightOf r) < lv)) &&
      aaInvB l && aaInvB r

/-- Every child's `PreviousNode` holds the address of its parent (the
subtree root's own `prev` is not constrained here). -/
def psOk : ATree → Bool
  | .nil => true
  | .node _ _ a _ l r =>
    (decide (l = .nil ∨ prevOf l = some a)) &&
      (decide (r = .nil ∨ prevOf r = some a)) && psOk l && psOk r

/-- The root's `PreviousNode` is null. -/
def rootPrevNone : ATree → Bool
  | .nil => true
  | .node _ _ _ p _ _ => p = none

/-- All addresses in the subtree are `< c` (they were allocated before the
counter reached `c`). -/
def addrLtB (c : Nat) : ATree → Bool
  | .nil => true
  | .node _ _ a _ l r => (decide (a < c)) && addrLtB c l && addrLtB c r

/-- Reachable container states: those produced from the empty set by any
sequence of `insert` and `erase` calls. -/
inductive Reachable : SetS → Prop where
  | empty : Reachable SetS.empty
  | insert (x : Int) {s : SetS} : Reachable s → Reachable (sinsert s x)
  | erase (x : Int) {s : SetS} : Reachable s → Reachable (serase s x)

/-- The balance bound of the specification,
`⌈2·log₂(size+1)⌉ = ⌈log₂((size+1)²)⌉`. -/
def heightBound (n : Nat) : Nat := Nat.clog 2 ((n+1)*(n+1))

/-- Model of `u` is a node of the graph `t` (the subtree rooted at some node of `t`
is exactly `u`). -/
def occurs (u : ATree) : ATree → Prop
  | .nil => False
  | .node v lv a p l r => u = .node v lv a p l r ∨ occurs u l ∨ occurs u r

/-- Well-formedness of a container state: binary-search ordering, parent
back-references consistent, a null parent at the root, all addresses below
the allocation counter and mutually distinct, and `Size_` agreeing with the
number of nodes.  `Reachable_WF` shows every reachable state satisfies
this. -/
def WF (s : SetS) : Prop :=
  bstB s.root = true ∧ psOk s.root = true ∧ rootPrevNone s.root = true ∧
    addrLtB s.ctr s.root = true ∧ (addrsA s.root).Nodup ∧
    s.ssize = (inorderV s.root).length

/-- Model of `operator++` walks this list of positions: each node's successor is the
next entry, and the last one steps to the continuation `k`. -/
def chainIncr (root : ATree) : List Nat → Option Nat → Prop
  | [], _ => True
  | [x], k => iterIncr root x = some k
  | x :: y :: rest, k =>
      iterIncr root x = some (some y) ∧ chainIncr root (y :: rest) k

/-- Model of `operator--` walks this list of positions backwards: the first entry
steps to the continuation `k`, and each later entry to its predecessor. -/
def chainDecr (root : ATree) (k : Option Nat) : List Nat → Prop
  | [] => True
  | x :: rest => iterDecr root (some x) = some k ∧ chainDecr root (some x) rest

/-- Apply a sequence of public mutations (`true v` = `insert(v)`,
`false v` = `erase(v)`) to the empty set. -/
def applyOp (s : SetS) (op : Bool × Int) : SetS :=
  if op.1 then sinsert s op.2 else serase s op.2

def applyOps (ops : List (Bool × Int)) : SetS :=
  ops.foldl applyOp SetS.empty

/-- An adversarial mutation sequence: it drives the tree into a 7-node
right chain of height 7 (the balance bound for size 7 is 6). -/
def opsC2 : List (Bool × Int) :=
  [(true,1),(true,2),(true,3),(true,4),(false,1),(true,5),(true,6),(true,7),
   (false,3),(false,2),(false,5),(true,8),(true,9),(false,7),(true,10),
   (true,11),(false,6),(false,9),(true,12),(true,13),(false,11),(true,14),
   (true,15),(false,4),(false,10),(false,13),(true,16),(true,17),(false,15),
   (true,18),(true,19),(false,14),(false,17),(true,20),(true,21),(false,19),
   (true,22)]

/-- Insertion into a duplicate-free sorted list, mirroring the descent of
`Set::Insert` (used only to state what `Insert` does to the in-order
values). -/
def insV (v : Int) : List Int → List Int
  | [] => [v]
  | x :: xs => if v < x then v :: x :: xs
               else if x < v then x :: insV v xs
               else x :: xs

/-- Removal of a value from a list (used only to state what `Erase` does to
the in-order values). -/
def remV (v : Int) (l : List Int) : List Int :=
  l.filter (fun y => decide (y ≠ v))

/-- Contract of a rebalancing step taking subtree `t` and counter `c` to
subtree `t'` and counter `c'`: the counter grows, the stored values and the
root's `PreviousNode` are unchanged, parent-consistency is preserved, and
addresses stay within bounds, are drawn from the old ones or fresh, and
remain distinct. -/
def Ctr (t : ATree) (c : Nat) (t' : ATree) (c' : Nat) : Prop :=
  c ≤ c' ∧ inorderV t' = inorderV t ∧ prevOf t' = prevOf t ∧
    (psOk t = true → psOk t' = true) ∧
    (addrLtB c t = true →
      addrLtB c' t' = true ∧
      (∀ b ∈ addrsA t', b ∈ addrsA t ∨ c ≤ b) ∧
      ((addrsA t).Nodup → (addrsA t').Nodup))

/-- Structural contract of `Insert`/`Erase` on a subtree: like `Ctr` but
without value preservation, and the result may be the null tree (a deleted
leaf). -/
def SCtr (t : ATree) (c : Nat) (t' : ATree) (c' : Nat) : Prop :=
  c ≤ c' ∧ (t' = .nil ∨ prevOf t' = prevOf t) ∧
    (psOk t = true → psOk t' = true) ∧
    (addrLtB c t = true →
      addrLtB c' t' = true ∧
      (∀ b ∈ addrsA t', b ∈ addrsA t ∨ c ≤ b) ∧
      ((addrsA t).Nodup → (addrsA t').Nodup))

/-! ## Basic simp lemmas -/

@[simp] theorem setPrev_nil (p : Option Nat) : setPrev .nil p = .nil := rfl

@[simp] theorem setPrev_node (v : Int) (lv a : Nat) (q p : Option Nat) (l r : ATree) :
    setPrev (.node v lv a q l r) p = .node v lv a p l r := rfl

@[simp] theorem inorderV_setPrev (t : ATree) (p : Option Nat) :
    inorderV (setPrev t p) = inorderV t := by
  cases t <;> rfl

@[simp] theorem addrsA_setPrev (t : ATree) (p : Option Nat) :
    addrsA (setPrev t p) = addrsA t := by
  cases t <;> rfl

@[simp] theorem countA_setPrev (t : ATree) (p : Option Nat) :
    countA (setPrev t p) = countA t := by
  cases t <;> rfl

@[simp] theorem allB_setPrev (f : Int → Bool) (t : ATree) (p : Option Nat) :
    allB f (setPrev t p) = allB f t := by
  cases t <;> rfl

@[simp] theorem bstB_setPrev (t : ATree) (p : Option Nat) :
    bstB (setPrev t p) = bstB t := by
  cases t <;> rfl

@[simp] theorem psOk_setPrev (t : ATree) (p : Option Nat) :
    psOk (setPrev t p) = psOk t := by
  cases t <;> rfl

@[simp] theorem addrLtB_setPrev (c : Nat) (t : ATree) (p : Option Nat) :
    addrLtB c (setPrev t p) = addrLtB c t := by
  cases t <;> rfl

theorem prevOf_setPrev_or (t : ATree) (p : Option Nat) :
    setPrev t p = .nil ∨ prevOf (setPrev t p) = p := by
  cases t
  · exact Or.inl rfl
  · exact Or.inr rfl

/-! ## Rotations preserve the stored values -/

theorem inorderV_Skew (t : ATree) (c : Nat) :
    inorderV (Skew t c).1 = inorderV t := by
  cases t with
  | nil => rfl
  | node v lv a p l r =>
    cases l with
    | nil => rfl
    | node lval llev la lp ll lr =>
      by_cases h : lv = llev <;> simp [Skew, h, inorderV]

theorem inorderV_Split (t : ATree) (c : Nat) :
    inorderV (Split t c).1 = inorderV t := by
  cases t with
  | nil => rfl
  | node v lv a p l r =>
    cases r with
    | nil => rfl
    | node rv rlev ra rp rl rr =>
      cases rr with
      | nil => rfl
      | node rrv rrlev rra rrp rrl rrr =>
        by_cases h : lv = rrlev <;> simp [Split, h, inorderV]

theorem inorderV_DecreaseLevel (t : ATree) :
    inorderV (DecreaseLevel t) = inorderV t := by
  cases t with
  | nil => rfl
  | node v lv a p l r =>
    cases l with
    | nil => rfl
    | node lval llev la lp ll lr =>
      cases r with
      | nil => rfl
      | node rv rlev ra rp rl rr =>
        simp only [DecreaseLevel]
        split <;> simp [inorderV]

theorem prevOf_Skew (t : ATree) (c : Nat) :
    prevOf (Skew t c).1 = prevOf t := by
  cases t with
  | nil => rfl
  | node v lv a p l r =>
    cases l with
    | nil => rfl
    | node lval llev la lp ll lr =>
      by_cases h : lv = llev <;> simp [Skew, h, prevOf]

theorem prevOf_Split (t : ATree) (c : Nat) :
    prevOf (Split t c).1 = prevOf t := by
  cases t with
  | nil => rfl
  | node v lv a p l r =>
    cases r with
    | nil => rfl
    | node rv rlev ra rp rl rr =>
      cases rr with
      | nil => rfl
      | node rrv rrlev rra rrp rrl rrr =>
        by_cases h : lv = rrlev <;> simp [Split, h, prevOf]

theorem prevOf_DecreaseLevel (t : ATree) :
    prevOf (DecreaseLevel t) = prevOf t := by
  cases t with
  | nil => rfl
  | node v lv a p l r =>
    cases l with
    | nil => rfl
    | node lval llev la lp ll lr =>
      cases r with
      | nil => rfl
      | node rv rlev ra rp rl rr =>
        simp only [DecreaseLevel]
        split <;> simp [prevOf]

theorem Skew_nil_iff (t : ATree) (c : Nat) : (Skew t c).1 = .nil ↔ t = .nil := by
  cases t with
  | nil => simp [Skew]
  | node v lv a p l r =>
    cases l with
    | nil => simp [Skew]
    | node lval llev la lp ll lr =>
      by_cases h : lv = llev <;> simp [Skew, h]

theorem Split_nil_iff (t : ATree) (c : Nat) : (Split t c).1 = .nil ↔ t = .nil := by
  cases t with
  | nil => simp [Split]
  | node v lv a p l r =>
    cases r with
    | nil => simp [Split]
    | node rv rlev ra rp rl rr =>
      cases rr with
      | nil => simp [Split]
      | node rrv rrlev rra rrp rrl rrr =>
        by_cases h : lv = rrlev <;> simp [Split, h]

theorem DecreaseLevel_nil_iff (t : ATree) : DecreaseLevel t = .nil ↔ t = .nil := by
  cases t with
  | nil => simp [DecreaseLevel]
  | node v lv a p l r =>
    cases l with
    | nil => simp [DecreaseLevel]
    | node lval llev la lp ll lr =>
      cases r with
      | nil => simp [DecreaseLevel]
      | node rv rlev ra rp rl rr =>
        simp only [DecreaseLevel]
        split <;> simp

/-! ## Rotations keep parent back-references consistent -/

theorem psOk_node_iff (v : Int) (lv a : Nat) (p : Option Nat) (l r : ATree) :
    psOk (.node v lv a p l r) = true ↔
      ((l = .nil ∨ prevOf l = some a) ∧ (r = .nil ∨ prevOf r = some a) ∧
        psOk l = true ∧ psOk r = true) := by
  simp only [psOk, Bool.and_eq_true, decide_eq_true_eq]
  tauto

theorem psOk_Skew (t : ATree) (c : Nat) (h : psOk t = true) :
    psOk (Skew t c).1 = true := by
  cases t with
  | nil => exact h
  | node v lv a p l r =>
    cases l with
    | nil => exact h
    | node lval llev la lp ll lr =>
      by_cases hl : lv = llev
      · simp only [Skew, hl, ne_eq, not_true_eq_false, if_false]
        rw [psOk_node_iff] at h
        obtain ⟨-, hro, hpl, hpr⟩ := h
        rw [psOk_node_iff] at hpl
        obtain ⟨-, -, hpll, hplr⟩ := hpl
        rw [psOk_node_iff]
        refine ⟨prevOf_setPrev_or _ _, Or.inr rfl, by simpa using hpll, ?_⟩
        rw [psOk_node_iff]
        exact ⟨prevOf_setPrev_or _ _, prevOf_setPrev_or _ _,
          by simpa using hplr, by simpa using hpr⟩
      · simpa [Skew, hl] using h

theorem psOk_Split (t : ATree) (c : Nat) (h : psOk t = true) :
    psOk (Split t c).1 = true := by
  cases t with
  | nil => exact h
  | node v lv a p l r =>
    cases r with
    | nil => exact h
    | node rv rlev ra rp rl rr =>
      cases rr with
      | nil => exact h
      | node rrv rrlev rra rrp rrl rrr =>
        by_cases hl : lv = rrlev
        · simp only [Split, hl, ne_eq, not_true_eq_false, if_false]
          rw [psOk_node_iff] at h
          obtain ⟨hlo, -, hpl, hpr⟩ := h
          rw [psOk_node_iff] at hpr
          obtain ⟨hrlo, -, hprl, hprr⟩ := hpr
          rw [psOk_node_iff]
          refine ⟨Or.inr rfl, Or.inr rfl, ?_, by simpa using hprr⟩
          rw [psOk_node_iff]
          exact ⟨prevOf_setPrev_or _ _, prevOf_setPrev_or _ _,
            by simpa using hpl, by simpa using hprl⟩
        · simpa [Split, hl] using h

theorem psOk_DecreaseLevel (t : ATree) (h : psOk t = true) :
    psOk (DecreaseLevel t) = true := by
  cases t with
  | nil => exact h
  | node v lv a p l r =>
    cases l with
    | nil => exact h
    | node lval llev la lp ll lr =>
      cases r with
      | nil => exact h
      | node rv rlev ra rp rl rr =>
        simp only [psOk, Bool.and_eq_true, decide_eq_true_eq] at h
        simp only [DecreaseLevel]
        split
        · simp only [psOk, Bool.and_eq_true, decide_eq_true_eq, prevOf]
          simp only [psOk, Bool.and_eq_true, decide_eq_true_eq, prevOf] at h
          tauto
        · simp only [psOk, Bool.and_eq_true, decide_eq_true_eq]
          tauto

/-! ## Address bookkeeping -/

theorem addrLtB_iff (c : Nat) (t : ATree) :
    addrLtB c t = true ↔ ∀ b ∈ addrsA t, b < c := by
  induction t with
  | nil => simp [addrLtB, addrsA]
  | node v lv a p l r ihl ihr =>
    simp only [addrLtB, addrsA, Bool.and_eq_true, decide_eq_true_eq, ihl, ihr,
      List.mem_append, List.mem_cons]
    constructor
    · rintro ⟨⟨ha, hl⟩, hr⟩ b (hb | hb | hb)
      · exact hl b hb
      · exact hb ▸ ha
      · exact hr b hb
    · intro h
      exact ⟨⟨h a (Or.inr (Or.inl rfl)), fun b hb => h b (Or.inl hb)⟩,
        fun b hb => h b (Or.inr (Or.inr hb))⟩

theorem addrLtB_mono {c c' : Nat} (t : ATree) (h : addrLtB c t = true) (hc : c ≤ c') :
    addrLtB c' t = true := by
  rw [addrLtB_iff] at h ⊢
  exact fun b hb => lt_of_lt_of_le (h b hb) hc

theorem Skew_ctr_le (t : ATree) (c : Nat) : c ≤ (Skew t c).2 := by
  cases t with
  | nil => exact le_refl c
  | node v lv a p l r =>
    cases l with
    | nil => exact le_refl c
    | node lval llev la lp ll lr =>
      by_cases hl : lv = llev <;> simp [Skew, hl]

theorem Split_ctr_le (t : ATree) (c : Nat) : c ≤ (Split t c).2 := by
  cases t with
  | nil => exact le_refl c
  | node v lv a p l r =>
    cases r with
    | nil => exact le_refl c
    | node rv rlev ra rp rl rr =>
      cases rr with
      | nil => exact le_refl c
      | node rrv rrlev rra rrp rrl rrr =>
        by_cases hl : lv = rrlev <;> simp [Split, hl]

theorem perm_two_middles (x y : Nat) (A B C : List Nat) :
    (List.Perm (A ++ x :: (B ++ y :: C)) (x :: y :: (A ++ (B ++ C)))) :=
  List.Perm.trans List.perm_middle
    (List.Perm.cons x
      (List.Perm.trans (List.Perm.append_left A List.perm_middle)
        List.perm_middle))

theorem nodup_two_fresh (x y : Nat) (A B C : List Nat) (hxy : x ≠ y)
    (hx : x ∉ A ++ (B ++ C)) (hy : y ∉ A ++ (B ++ C))
    (hnd : (A ++ (B ++ C)).Nodup) :
    (A ++ x :: (B ++ y :: C)).Nodup := by
  refine (perm_two_middles x y A B C).symm.nodup ?_
  simp only [List.nodup_cons, List.mem_cons]
  exact ⟨by rintro (h | h); exact hxy h; exact hx h, hy, hnd⟩

theorem nodup_drop_two_middles (x y : Nat) (A B C : List Nat)
    (hnd : (A ++ x :: (B ++ y :: C)).Nodup) : (A ++ (B ++ C)).Nodup :=
  (((perm_two_middles x y A B C).nodup hnd).of_cons).of_cons

theorem Skew_addrs (t : ATree) (c : Nat) (hlt : addrLtB c t = true) :
    addrLtB (Skew t c).2 (Skew t c).1 = true ∧
      (∀ b ∈ addrsA (Skew t c).1, b ∈ addrsA t ∨ c ≤ b) ∧
      ((addrsA t).Nodup → (addrsA (Skew t c).1).Nodup) := by
  cases t with
  | nil => exact ⟨hlt, fun b hb => Or.inl hb, fun h => h⟩
  | node v lv a p l r =>
    cases l with
    | nil => exact ⟨hlt, fun b hb => Or.inl hb, fun h => h⟩
    | node lval llev la lp ll lr =>
      by_cases hl : lv = llev
      · simp only [Skew, hl, ne_eq, not_true_eq_false, if_false]
        rw [addrLtB_iff] at hlt
        simp only [addrsA, List.mem_append, List.mem_cons] at hlt
        have hlt3 : ∀ b, b ∈ addrsA ll ∨ b ∈ addrsA lr ∨ b ∈ addrsA r → b < c :=
          fun b hb => hlt b (by tauto)
        refine ⟨?_, ?_, ?_⟩
        · rw [addrLtB_iff]
          simp only [addrsA, addrsA_setPrev, List.mem_append, List.mem_cons]
          intro b hb
          rcases hb with hb | hb | hb | hb | hb
          · exact lt_of_lt_of_le (hlt3 b (by tauto)) (by omega)
          · omega
          · exact lt_of_lt_of_le (hlt3 b (by tauto)) (by omega)
          · omega
          · exact lt_of_lt_of_le (hlt3 b (by tauto)) (by omega)
        · simp only [addrsA, addrsA_setPrev, List.mem_append, List.mem_cons]
          intro b hb
          rcases hb with hb | hb | hb | hb | hb
          · exact Or.inl (by tauto)
          · omega
          · exact Or.inl (by tauto)
          · omega
          · exact Or.inl (by tauto)
        · intro hnd
          simp only [addrsA, addrsA_setPrev] at hnd ⊢
          have hnd' : ((addrsA ll ++ la :: addrsA lr) ++ a :: addrsA r).Nodup := hnd
          rw [List.append_assoc] at hnd'
          have hbase := nodup_drop_two_middles la a (addrsA ll) (addrsA lr) (addrsA r) hnd'
          refine nodup_two_fresh (c+1) c _ _ _ (by omega) ?_ ?_ hbase
          · intro hmem
            simp only [List.mem_append] at hmem
            exact absurd (hlt3 (c+1) (by tauto)) (by omega)
          · intro hmem
            simp only [List.mem_append] at hmem
            exact absurd (hlt3 c (by tauto)) (by omega)
      · exact ⟨by simpa [Skew, hl] using hlt,
          fun b hb => Or.inl (by simpa [Skew, hl] using hb),
          fun h => by simpa [Skew, hl] using h⟩

@[simp] theorem addrsA_DecreaseLevel (t : ATree) :
    addrsA (DecreaseLevel t) = addrsA t := by
  cases t with
  | nil => rfl
  | node v lv a p l r =>
    cases l with
    | nil => rfl
    | node lval llev la lp ll lr =>
      cases r with
      | nil => rfl
      | node rv rlev ra rp rl rr =>
        simp only [DecreaseLevel]
        split <;> simp [addrsA]

theorem Split_addrs (t : ATree) (c : Nat) (hlt : addrLtB c t = true) :
    addrLtB (Split t c).2 (Split t c).1 = true ∧
      (∀ b ∈ addrsA (Split t c).1, b ∈ addrsA t ∨ c ≤ b) ∧
      ((addrsA t).Nodup → (addrsA (Split t c).1).Nodup) := by
  cases t with
  | nil => exact ⟨hlt, fun b hb => Or.inl hb, fun h => h⟩
  | node v lv a p l r =>
    cases r with
    | nil => exact ⟨hlt, fun b hb => Or.inl hb, fun h => h⟩
    | node rv rlev ra rp rl rr =>
      cases rr with
      | nil => exact ⟨hlt, fun b hb => Or.inl hb, fun h => h⟩
      | node rrv rrlev rra rrp rrl rrr =>
        by_cases hl : lv = rrlev
        · simp only [Split, hl, ne_eq, not_true_eq_false, if_false]
          rw [addrLtB_iff] at hlt
          simp only [addrsA, List.mem_append, List.mem_cons] at hlt
          have hlt3 : ∀ b, b ∈ addrsA l ∨ b ∈ addrsA rl ∨ b ∈ addrsA rrl ∨
              b = rra ∨ b ∈ addrsA rrr → b < c := by
            intro b hb
            exact hlt b (by tauto)
          have hperm := perm_two_middles c (c+1) (addrsA l) (addrsA rl)
            (addrsA rrl ++ rra :: addrsA rrr)
          have hmem : ∀ b, b ∈ addrsA (ATree.node rv (rlev+1) (c+1) p
              (ATree.node v lv c (some (c+1)) (setPrev l (some c))
                (setPrev rl (some c)))
              (setPrev (ATree.node rrv rrlev rra rrp rrl rrr) (some (c+1)))) ↔
              (b = c ∨ b = c + 1 ∨ (b ∈ addrsA l ∨ b ∈ addrsA rl ∨
                b ∈ addrsA rrl ++ rra :: addrsA rrr)) := by
            intro b
            simp only [addrsA, addrsA_setPrev, setPrev_node, List.cons_append,
              List.append_assoc]
            rw [List.Perm.mem_iff hperm]
            simp only [List.mem_cons, List.mem_append]
          refine ⟨?_, ?_, ?_⟩
          · rw [addrLtB_iff]
            intro b hb
            rcases (hmem b).mp hb with hb | hb | hb
            · omega
            · omega
            · simp only [List.mem_append, List.mem_cons] at hb
              exact lt_of_lt_of_le (hlt3 b (by tauto)) (by omega)
          · intro b hb
            rcases (hmem b).mp hb with hb | hb | hb
            · omega
            · omega
            · refine Or.inl ?_
              simp only [addrsA, List.mem_append, List.mem_cons]
              simp only [List.mem_append, List.mem_cons] at hb
              tauto
          · intro hnd
            simp only [addrsA, addrsA_setPrev, setPrev_node, List.cons_append,
              List.append_assoc] at hnd ⊢
            have hbase := nodup_drop_two_middles a ra (addrsA l) (addrsA rl)
              (addrsA rrl ++ rra :: addrsA rrr) hnd
            refine nodup_two_fresh c (c+1) _ _ _ (by omega) ?_ ?_ hbase
            · intro hmem2
              simp only [List.mem_append, List.mem_cons] at hmem2
              exact absurd (hlt3 c (by tauto)) (by omega)
            · intro hmem2
              simp only [List.mem_append, List.mem_cons] at hmem2
              exact absurd (hlt3 (c+1) (by tauto)) (by omega)
        · exact ⟨by simpa [Split, hl] using hlt,
            fun b hb => Or.inl (by simpa [Split, hl] using hb),
            fun h => by simpa [Split, hl] using h⟩

/-! ## The rebalancing-step contract -/

theorem inorderV_eq_nil_iff (t : ATree) : inorderV t = [] ↔ t = .nil := by
  cases t with
  | nil => simp [inorderV]
  | node v lv a p l r => simp [inorderV]

theorem addrLtB_node_iff (c : Nat) (v : Int) (lv a : Nat) (p : Option Nat)
    (l r : ATree) :
    addrLtB c (.node v lv a p l r) = true ↔
      (a < c ∧ addrLtB c l = true ∧ addrLtB c r = true) := by
  simp only [addrLtB, Bool.and_eq_true, decide_eq_true_eq]
  tauto

theorem Ctr_refl (t : ATree) (c : Nat) : Ctr t c t c :=
  ⟨le_refl c, rfl, rfl, fun h => h, fun h => ⟨h, fun b hb => Or.inl hb, fun h => h⟩⟩

theorem Ctr_trans {t : ATree} {c : Nat} {u : ATree} {c₁ : Nat} {t' : ATree}
    {c' : Nat} (h1 : Ctr t c u c₁) (h2 : Ctr u c₁ t' c') : Ctr t c t' c' := by
  obtain ⟨hc1, hi1, hp1, hps1, ha1⟩ := h1
  obtain ⟨hc2, hi2, hp2, hps2, ha2⟩ := h2
  refine ⟨le_trans hc1 hc2, hi2.trans hi1, hp2.trans hp1,
    fun h => hps2 (hps1 h), fun hlt => ?_⟩
  obtain ⟨hb1, hm1, hn1⟩ := ha1 hlt
  obtain ⟨hb2, hm2, hn2⟩ := ha2 hb1
  refine ⟨hb2, fun b hb => ?_, fun h => hn2 (hn1 h)⟩
  rcases hm2 b hb with h | h
  · rcases hm1 b h with h' | h'
    · exact Or.inl h'
    · exact Or.inr h'
  · exact Or.inr (le_trans hc1 h)

theorem Ctr_Skew (t : ATree) (c : Nat) : Ctr t c (Skew t c).1 (Skew t c).2 :=
  ⟨Skew_ctr_le t c, inorderV_Skew t c, prevOf_Skew t c, psOk_Skew t c,
    fun hlt => Skew_addrs t c hlt⟩

theorem Ctr_Split (t : ATree) (c : Nat) : Ctr t c (Split t c).1 (Split t c).2 :=
  ⟨Split_ctr_le t c, inorderV_Split t c, prevOf_Split t c, psOk_Split t c,
    fun hlt => Split_addrs t c hlt⟩

theorem Ctr_DecreaseLevel (t : ATree) (c : Nat) : Ctr t c (DecreaseLevel t) c := by
  refine ⟨le_refl c, inorderV_DecreaseLevel t, prevOf_DecreaseLevel t,
    psOk_DecreaseLevel t, fun hlt => ?_⟩
  refine ⟨?_, ?_, ?_⟩
  · rw [addrLtB_iff, addrsA_DecreaseLevel]
    exact (addrLtB_iff c t).mp hlt
  · rw [addrsA_DecreaseLevel]
    exact fun b hb => Or.inl hb
  · rw [addrsA_DecreaseLevel]
    exact fun h => h

theorem Ctr_replaceRight {r : ATree} {c : Nat} {r' : ATree} {c' : Nat}
    (v : Int) (lv a : Nat) (p : Option Nat) (l : ATree)
    (h : Ctr r c r' c') :
    Ctr (.node v lv a p l r) c (.node v lv a p l r') c' := by
  obtain ⟨hc, hi, hp, hps, ha⟩ := h
  refine ⟨hc, by simp [inorderV, hi], rfl, ?_, ?_⟩
  · intro hps0
    rw [psOk_node_iff] at hps0 ⊢
    obtain ⟨hlo, hro, hpl, hpr⟩ := hps0
    refine ⟨hlo, ?_, hpl, hps hpr⟩
    rcases hro with hro | hro
    · left
      rw [← inorderV_eq_nil_iff] at hro ⊢
      rw [hi, hro]
    · right
      rw [hp, hro]
  · intro hlt
    rw [addrLtB_node_iff] at hlt
    obtain ⟨hac, hll, hrl⟩ := hlt
    obtain ⟨hb1, hm1, hn1⟩ := ha hrl
    refine ⟨?_, ?_, ?_⟩
    · rw [addrLtB_node_iff]
      exact ⟨lt_of_lt_of_le hac hc, addrLtB_mono l hll hc, hb1⟩
    · intro b hb
      simp only [addrsA, List.mem_append, List.mem_cons] at hb ⊢
      rcases hb with hb | hb | hb
      · exact Or.inl (by tauto)
      · exact Or.inl (by tauto)
      · rcases hm1 b hb with h | h
        · exact Or.inl (by tauto)
        · exact Or.inr h
    · intro hnd
      simp only [addrsA] at hnd ⊢
      rw [List.nodup_middle] at hnd ⊢
      simp only [List.nodup_cons, List.mem_append, List.nodup_append] at hnd ⊢
      obtain ⟨hamem, hndl, hndr, hdisj⟩ := hnd
      have hlbound : ∀ b ∈ addrsA l, b < c := (addrLtB_iff c l).mp hll
      refine ⟨?_, hndl, hn1 hndr, fun b hbl hbr => ?_⟩
      · intro hmem
        rcases hmem with hm | hm
        · exact hamem (Or.inl hm)
        · rcases hm1 _ hm with h | h
          · exact hamem (Or.inr h)
          · omega
      · rcases hm1 b hbr with h | h
        · exact hdisj hbl h
        · exact absurd (hlbound b hbl) (by omega)

theorem Ctr_skewRightChild (u : ATree) (c : Nat) :
    Ctr u c (skewRightChild u c).1 (skewRightChild u c).2 := by
  cases u with
  | nil => exact Ctr_refl _ _
  | node v lv a p l r =>
    simpa [skewRightChild] using Ctr_replaceRight v lv a p l (Ctr_Skew r c)

theorem Ctr_splitRightChild (u : ATree) (c : Nat) :
    Ctr u c (splitRightChild u c).1 (splitRightChild u c).2 := by
  cases u with
  | nil => exact Ctr_refl _ _
  | node v lv a p l r =>
    simpa [splitRightChild] using Ctr_replaceRight v lv a p l (Ctr_Split r c)

theorem Ctr_skewRightRight (u : ATree) (c : Nat) :
    Ctr u c (skewRightRight u c).1 (skewRightRight u c).2 := by
  cases u with
  | nil => exact Ctr_refl _ _
  | node v lv a p l r =>
    simpa [skewRightRight] using Ctr_replaceRight v lv a p l
      (Ctr_skewRightChild r c)

theorem Ctr_EraseFixup (t : ATree) (c : Nat) :
    Ctr t c (EraseFixup t c).1 (EraseFixup t c).2 := by
  simp only [EraseFixup]
  exact Ctr_trans (Ctr_trans (Ctr_trans (Ctr_trans
    (Ctr_trans (Ctr_DecreaseLevel t c) (Ctr_Skew _ _))
    (Ctr_skewRightChild _ _)) (Ctr_skewRightRight _ _)) (Ctr_Split _ _))
    (Ctr_splitRightChild _ _)

/-! ## The structural contract of Insert and Erase -/

theorem SCtr_of_Ctr {t : ATree} {c : Nat} {t' : ATree} {c' : Nat}
    (h : Ctr t c t' c') : SCtr t c t' c' :=
  ⟨h.1, Or.inr h.2.2.1, h.2.2.2.1, h.2.2.2.2⟩

theorem SCtr_trans_Ctr {t : ATree} {c : Nat} {u : ATree} {c₁ : Nat}
    {t' : ATree} {c' : Nat} (h1 : SCtr t c u c₁) (h2 : Ctr u c₁ t' c') :
    SCtr t c t' c' := by
  obtain ⟨hc1, hp1, hps1, ha1⟩ := h1
  obtain ⟨hc2, hi2, hp2, hps2, ha2⟩ := h2
  refine ⟨le_trans hc1 hc2, ?_, fun h => hps2 (hps1 h), fun hlt => ?_⟩
  · rcases hp1 with hp1 | hp1
    · left
      rw [← inorderV_eq_nil_iff] at hp1 ⊢
      rw [hi2, hp1]
    · exact Or.inr (hp2.trans hp1)
  · obtain ⟨hb1, hm1, hn1⟩ := ha1 hlt
    obtain ⟨hb2, hm2, hn2⟩ := ha2 hb1
    refine ⟨hb2, fun b hb => ?_, fun h => hn2 (hn1 h)⟩
    rcases hm2 b hb with h | h
    · rcases hm1 b h with h' | h'
      · exact Or.inl h'
      · exact Or.inr h'
    · exact Or.inr (le_trans hc1 h)

theorem SCtr_insLeft {l : ATree} {c : Nat} {l' : ATree} {c' : Nat}
    (v v' : Int) (lv : Nat) (a : Nat) (p : Option Nat) (r : ATree)
    (h : SCtr l c l' c') :
    SCtr (.node v lv a p l r) c (.node v' lv a p (setPrev l' (some a)) r) c' := by
  obtain ⟨hc, hp, hps, ha⟩ := h
  refine ⟨hc, Or.inr rfl, ?_, ?_⟩
  · intro hps0
    rw [psOk_node_iff] at hps0 ⊢
    obtain ⟨hlo, hro, hpl, hpr⟩ := hps0
    exact ⟨prevOf_setPrev_or _ _, hro, by simpa using hps hpl, hpr⟩
  · intro hlt
    rw [addrLtB_node_iff] at hlt
    obtain ⟨hac, hll, hrl⟩ := hlt
    obtain ⟨hb1, hm1, hn1⟩ := ha hll
    have hrbound : ∀ b ∈ addrsA r, b < c := (addrLtB_iff c r).mp hrl
    refine ⟨?_, ?_, ?_⟩
    · rw [addrLtB_node_iff]
      exact ⟨lt_of_lt_of_le hac hc, by simpa using hb1, addrLtB_mono r hrl hc⟩
    · intro b hb
      simp only [addrsA, addrsA_setPrev, List.mem_append, List.mem_cons] at hb ⊢
      rcases hb with hb | hb | hb
      · rcases hm1 b hb with h | h
        · exact Or.inl (by tauto)
        · exact Or.inr h
      · exact Or.inl (by tauto)
      · exact Or.inl (by tauto)
    · intro hnd
      simp only [addrsA, addrsA_setPrev] at hnd ⊢
      rw [List.nodup_middle] at hnd ⊢
      simp only [List.nodup_cons, List.mem_append, List.nodup_append] at hnd ⊢
      obtain ⟨hamem, hndl, hndr, hdisj⟩ := hnd
      refine ⟨?_, hn1 hndl, hndr, fun b hbl hbr => ?_⟩
      · intro hmem
        rcases hmem with hm | hm
        · rcases hm1 _ hm with h | h
          · exact hamem (Or.inl h)
          · omega
        · exact hamem (Or.inr hm)
      · rcases hm1 b hbl with h | h
        · exact hdisj h hbr
        · exact absurd (hrbound b hbr) (by omega)

theorem SCtr_insRight {r : ATree} {c : Nat} {r' : ATree} {c' : Nat}
    (v v' : Int) (lv : Nat) (a : Nat) (p : Option Nat) (l : ATree)
    (h : SCtr r c r' c') :
    SCtr (.node v lv a p l r) c (.node v' lv a p l (setPrev r' (some a))) c' := by
  obtain ⟨hc, hp, hps, ha⟩ := h
  refine ⟨hc, Or.inr rfl, ?_, ?_⟩
  · intro hps0
    rw [psOk_node_iff] at hps0 ⊢
    obtain ⟨hlo, hro, hpl, hpr⟩ := hps0
    exact ⟨hlo, prevOf_setPrev_or _ _, hpl, by simpa using hps hpr⟩
  · intro hlt
    rw [addrLtB_node_iff] at hlt
    obtain ⟨hac, hll, hrl⟩ := hlt
    obtain ⟨hb1, hm1, hn1⟩ := ha hrl
    have hlbound : ∀ b ∈ addrsA l, b < c := (addrLtB_iff c l).mp hll
    refine ⟨?_, ?_, ?_⟩
    · rw [addrLtB_node_iff]
      exact ⟨lt_of_lt_of_le hac hc, addrLtB_mono l hll hc, by simpa using hb1⟩
    · intro b hb
      simp only [addrsA, addrsA_setPrev, List.mem_append, List.mem_cons] at hb ⊢
      rcases hb with hb | hb | hb
      · exact Or.inl (by tauto)
      · exact Or.inl (by tauto)
      · rcases hm1 b hb with h | h
        · exact Or.inl (by tauto)
        · exact Or.inr h
    · intro hnd
      simp only [addrsA, addrsA_setPrev] at hnd ⊢
      rw [List.nodup_middle] at hnd ⊢
      simp only [List.nodup_cons, List.mem_append, List.nodup_append] at hnd ⊢
      obtain ⟨hamem, hndl, hndr, hdisj⟩ := hnd
      refine ⟨?_, hndl, hn1 hndr, fun b hbl hbr => ?_⟩
      · intro hmem
        rcases hmem with hm | hm
        · exact hamem (Or.inl hm)
        · rcases hm1 _ hm with h | h
          · exact hamem (Or.inr h)
          · omega
      · rcases hm1 b hbr with h | h
        · exact hdisj hbl h
        · exact absurd (hlbound b hbl) (by omega)

theorem SCtr_InsertN (t : ATree) (x : Int) (c sz : Nat) :
    SCtr t c (InsertN t x c sz).1 (InsertN t x c sz).2.1 := by
  induction t generalizing c sz with
  | nil =>
    refine ⟨Nat.le_succ c, Or.inr rfl, fun h => rfl, fun hlt => ?_⟩
    refine ⟨by simp [InsertN, addrLtB], ?_, ?_⟩
    · intro b hb
      right
      have hb' : b ∈ [c] := hb
      simp only [List.mem_singleton] at hb'
      omega
    · intro h
      simp [InsertN, addrsA]
  | node v lv a p l r ihl ihr =>
    simp only [InsertN]
    by_cases h1 : x < v
    · simp only [h1, if_true]
      exact SCtr_trans_Ctr (SCtr_trans_Ctr
        (SCtr_insLeft v v lv a p r (ihl c sz)) (Ctr_Skew _ _)) (Ctr_Split _ _)
    · by_cases h2 : v < x
      · simp only [h1, h2, if_false, if_true]
        exact SCtr_trans_Ctr (SCtr_trans_Ctr
          (SCtr_insRight v v lv a p l (ihr c sz)) (Ctr_Skew _ _)) (Ctr_Split _ _)
      · simp only [h1, h2, if_false]
        exact SCtr_of_Ctr (Ctr_trans (Ctr_Skew _ _) (Ctr_Split _ _))

theorem SCtr_EraseN (t : ATree) (x : Int) (c sz : Nat) :
    SCtr t c (EraseN t x c sz).1 (EraseN t x c sz).2.1 := by
  induction t generalizing x c sz with
  | nil => exact ⟨le_refl c, Or.inl rfl, fun h => h, fun hlt =>
      ⟨hlt, fun b hb => Or.inl hb, fun h => h⟩⟩
  | node v lv a p l r ihl ihr =>
    rw [EraseN.eq_def]
    by_cases h1 : x < v
    · simp only [h1, if_true]
      exact SCtr_trans_Ctr (SCtr_insLeft v v lv a p r (ihl x c sz))
        (Ctr_EraseFixup _ _)
    · by_cases h2 : v < x
      · simp only [h1, h2, if_false, if_true]
        exact SCtr_trans_Ctr (SCtr_insRight v v lv a p l (ihr x c sz))
          (Ctr_EraseFixup _ _)
      · simp only [h1, h2, if_false]
        cases l with
        | nil =>
          cases r with
          | nil =>
            exact ⟨le_refl c, Or.inl rfl, fun h => rfl, fun hlt =>
              ⟨rfl, fun b hb => by simp [addrsA] at hb, fun h => by
                simp [addrsA]⟩⟩
          | node rv rlev ra rp rl rr =>
            exact SCtr_trans_Ctr
              (SCtr_insRight v (leftmostFrom rv rl) lv a p ATree.nil
                (ihr (leftmostFrom rv rl) c sz))
              (Ctr_EraseFixup _ _)
        | node lval llev la lp ll lr =>
          exact SCtr_trans_Ctr
            (SCtr_insLeft v (rightmostFrom lval lr) lv a p r
              (ihl (rightmostFrom lval lr) c sz))
            (Ctr_EraseFixup _ _)

/-! ## Values: the sorted-list bridge -/

theorem allB_iff (f : Int → Bool) (t : ATree) :
    allB f t = true ↔ ∀ x ∈ inorderV t, f x = true := by
  induction t with
  | nil => simp [allB, inorderV]
  | node v lv a p l r ihl ihr =>
    simp only [allB, inorderV, Bool.and_eq_true, ihl, ihr, List.mem_append,
      List.mem_cons]
    constructor
    · rintro ⟨⟨hv, hl⟩, hr⟩ x (hx | hx | hx)
      · exact hl x hx
      · exact hx ▸ hv
      · exact hr x hx
    · intro h
      exact ⟨⟨h v (Or.inr (Or.inl rfl)), fun x hx => h x (Or.inl hx)⟩,
        fun x hx => h x (Or.inr (Or.inr hx))⟩

theorem bstB_node_iff (v : Int) (lv a : Nat) (p : Option Nat) (l r : ATree) :
    bstB (.node v lv a p l r) = true ↔
      ((∀ x ∈ inorderV l, x < v) ∧ (∀ x ∈ inorderV r, v < x) ∧
        bstB l = true ∧ bstB r = true) := by
  simp only [bstB, Bool.and_eq_true, allB_iff, decide_eq_true_eq]
  tauto

theorem bstB_iff_pairwise (t : ATree) :
    bstB t = true ↔ (inorderV t).Pairwise (· < ·) := by
  induction t with
  | nil => simp [bstB, inorderV]
  | node v lv a p l r ihl ihr =>
    rw [bstB_node_iff, inorderV, List.pairwise_append, List.pairwise_cons,
      ihl, ihr]
    constructor
    · rintro ⟨hl, hr, hpl, hpr⟩
      refine ⟨hpl, ⟨hr, hpr⟩, fun a ha b hb => ?_⟩
      rcases List.mem_cons.mp hb with rfl | hb
      · exact hl a ha
      · exact lt_trans (hl a ha) (hr b hb)
    · rintro ⟨hpl, ⟨hr, hpr⟩, hcross⟩
      exact ⟨fun x hx => hcross x hx v (List.mem_cons_self v _), hr, hpl, hpr⟩

theorem pairwise_nodup {l : List Int} (h : l.Pairwise (· < ·)) : l.Nodup :=
  h.imp (fun hab => ne_of_lt hab)

/-! ## Lemmas about the sorted-insert list function -/

theorem insV_append_lt {v v0 : Int} (l2 : List Int) (hv : v < v0)
    (l1 : List Int) :
    insV v (l1 ++ v0 :: l2) = insV v l1 ++ v0 :: l2 := by
  induction l1 with
  | nil => simp [insV, hv]
  | cons x xs ih =>
    by_cases h1 : v < x
    · simp [insV, h1]
    · by_cases h2 : x < v
      · simp [insV, h1, h2, ih]
      · simp [insV, h1, h2]

theorem insV_append_gt {v v0 : Int} (l2 : List Int) (hv : v0 < v)
    (l1 : List Int) (hl : ∀ y ∈ l1, y < v) :
    insV v (l1 ++ v0 :: l2) = l1 ++ v0 :: insV v l2 := by
  induction l1 with
  | nil => simp [insV, asymm hv, hv]
  | cons x xs ih =>
    have hx : x < v := hl x (List.mem_cons_self x xs)
    simp only [List.cons_append, insV, asymm hx, if_false, hx, if_true,
      List.append_eq]
    rw [ih (fun y hy => hl y (List.mem_cons_of_mem x hy))]

theorem insV_append_eq {v : Int} (l2 : List Int)
    (l1 : List Int) (hl : ∀ y ∈ l1, y < v) :
    insV v (l1 ++ v :: l2) = l1 ++ v :: l2 := by
  induction l1 with
  | nil => simp [insV]
  | cons x xs ih =>
    have hx : x < v := hl x (List.mem_cons_self x xs)
    simp only [List.cons_append, insV, asymm hx, if_false, hx, if_true,
      List.append_eq]
    rw [ih (fun y hy => hl y (List.mem_cons_of_mem x hy))]

theorem mem_insV (y v : Int) (l : List Int) :
    y ∈ insV v l ↔ y = v ∨ y ∈ l := by
  induction l with
  | nil => simp [insV]
  | cons x xs ih =>
    by_cases h1 : v < x
    · simp only [insV, h1, if_true, List.mem_cons]
    · by_cases h2 : x < v
      · simp only [insV, h1, if_false, h2, if_true, List.mem_cons, ih]
        tauto
      · have : x = v := le_antisymm (not_lt.mp h1) (not_lt.mp h2)
        subst this
        simp only [insV, h1, h2, if_false, List.mem_cons]
        tauto

theorem insV_eq_self {v : Int} {l : List Int} (hsort : l.Pairwise (· < ·))
    (hmem : v ∈ l) : insV v l = l := by
  induction l with
  | nil => simp at hmem
  | cons x xs ih =>
    rw [List.pairwise_cons] at hsort
    rcases List.mem_cons.mp hmem with rfl | hmem'
    · simp [insV]
    · have hx : x < v := hsort.1 v hmem'
      simp only [insV, asymm hx, if_false, hx, if_true]
      rw [ih hsort.2 hmem']

theorem pairwise_insV (v : Int) (l : List Int) (h : l.Pairwise (· < ·)) :
    (insV v l).Pairwise (· < ·) := by
  induction l with
  | nil => simp [insV]
  | cons x xs ih =>
    rw [List.pairwise_cons] at h
    obtain ⟨hx, hxs⟩ := h
    by_cases h1 : v < x
    · simp only [insV, h1, if_true]
      rw [List.pairwise_cons]
      refine ⟨fun y hy => ?_, List.pairwise_cons.mpr ⟨hx, hxs⟩⟩
      rcases List.mem_cons.mp hy with rfl | hy
      · exact h1
      · exact lt_trans h1 (hx y hy)
    · by_cases h2 : x < v
      · simp only [insV, h1, if_false, h2, if_true]
        rw [List.pairwise_cons]
        refine ⟨fun y hy => ?_, ih hxs⟩
        rcases (mem_insV y v xs).mp hy with rfl | hy
        · exact h2
        · exact hx y hy
      · simp only [insV, h1, if_false, h2]
        exact List.pairwise_cons.mpr ⟨hx, hxs⟩

/-! ## Lemmas about the removal list function -/

theorem remV_append (v : Int) (l1 l2 : List Int) :
    remV v (l1 ++ l2) = remV v l1 ++ remV v l2 := by
  simp [remV, List.filter_append]

theorem remV_cons_ne {x v : Int} (l : List Int) (h : x ≠ v) :
    remV v (x :: l) = x :: remV v l := by
  simp [remV, List.filter_cons, h]

theorem remV_cons_eq (v : Int) (l : List Int) :
    remV v (v :: l) = remV v l := by
  simp [remV, List.filter_cons]

theorem remV_eq_self {v : Int} {l : List Int} (h : v ∉ l) :
    remV v l = l := by
  rw [remV, List.filter_eq_self]
  intro y hy
  simp only [ne_eq, decide_eq_true_eq]
  exact fun hyv => h (hyv ▸ hy)

theorem pairwise_remV (v : Int) (l : List Int) (h : l.Pairwise (· < ·)) :
    (remV v l).Pairwise (· < ·) :=
  List.Pairwise.filter _ h

theorem mem_remV (y v : Int) (l : List Int) :
    y ∈ remV v l ↔ y ∈ l ∧ y ≠ v := by
  simp [remV, List.mem_filter]

/-! ## Leftmost and rightmost values -/

theorem leftmostFrom_head (l : ATree) :
    ∀ (v : Int) (rest : List Int),
      ∃ tl, inorderV l ++ v :: rest = leftmostFrom v l :: tl := by
  induction l with
  | nil => exact fun v rest => ⟨rest, rfl⟩
  | node v' lv' a' p' l' r' ihl ihr =>
    intro v rest
    obtain ⟨tl, htl⟩ := ihl v' (inorderV r' ++ v :: rest)
    exact ⟨tl, by
      simp only [inorderV, leftmostFrom, List.append_assoc, List.cons_append]
      exact htl⟩

theorem rightmostFrom_last (r : ATree) :
    ∀ (v : Int) (pre : List Int),
      ∃ ini, pre ++ v :: inorderV r = ini ++ [rightmostFrom v r] := by
  induction r with
  | nil => exact fun v pre => ⟨pre, rfl⟩
  | node v' lv' a' p' l' r' ihl ihr =>
    intro v pre
    obtain ⟨ini, hini⟩ := ihr v' (pre ++ v :: inorderV l')
    exact ⟨ini, by
      simp only [inorderV, rightmostFrom]
      rw [← hini]
      simp [List.append_assoc]⟩

/-! ## What Insert and Erase do to the stored values and the size -/

theorem inorderV_EraseFixup (t : ATree) (c : Nat) :
    inorderV (EraseFixup t c).1 = inorderV t :=
  (Ctr_EraseFixup t c).2.1

theorem InsertN_val (t : ATree) (x : Int) (c sz : Nat) (hbst : bstB t = true) :
    inorderV (InsertN t x c sz).1 = insV x (inorderV t) ∧
    (InsertN t x c sz).2.2 = (if x ∈ inorderV t then sz else sz + 1) := by
  induction t generalizing c sz with
  | nil =>
    constructor
    · show inorderV (.node x 1 c none .nil .nil) = insV x []
      simp [inorderV, insV]
    · show sz + 1 = (if x ∈ ([] : List Int) then sz else sz + 1)
      simp
  | node v lv a p l r ihl ihr =>
    rw [bstB_node_iff] at hbst
    obtain ⟨hal, har, hbl, hbr⟩ := hbst
    by_cases h1 : x < v
    · simp only [InsertN, h1, if_true]
      obtain ⟨ihi, ihs⟩ := ihl c sz hbl
      constructor
      · rw [inorderV_Split, inorderV_Skew]
        simp only [inorderV, inorderV_setPrev, ihi]
        exact (insV_append_lt (inorderV r) h1 (inorderV l)).symm
      · rw [ihs]
        have hnot : x ∉ v :: inorderV r := by
          intro hx
          rcases List.mem_cons.mp hx with rfl | hx
          · exact absurd h1 (lt_irrefl x)
          · exact absurd (lt_trans h1 (har x hx)) (lt_irrefl x)
        simp only [inorderV, List.mem_append]
        by_cases hm : x ∈ inorderV l <;> simp [hm, hnot]
    · by_cases h2 : v < x
      · simp only [InsertN, h1, if_false, h2, if_true]
        obtain ⟨ihi, ihs⟩ := ihr c sz hbr
        constructor
        · rw [inorderV_Split, inorderV_Skew]
          simp only [inorderV, inorderV_setPrev, ihi]
          exact (insV_append_gt (inorderV r) h2 (inorderV l)
            (fun y hy => lt_trans (hal y hy) h2)).symm
        · rw [ihs]
          have hne : ¬x ∈ inorderV l := fun hx =>
            absurd (lt_trans h2 (hal x hx)) (lt_irrefl v)
          have hnv : x ≠ v := fun h => absurd (h ▸ h2) (lt_irrefl x)
          simp only [inorderV, List.mem_append, List.mem_cons]
          by_cases hm : x ∈ inorderV r <;> simp [hm, hne, hnv]
      · have hxv : x = v := le_antisymm (not_lt.mp h2) (not_lt.mp h1)
        simp only [InsertN, h1, if_false, h2]
        constructor
        · rw [inorderV_Split, inorderV_Skew]
          simp only [inorderV]
          rw [hxv]
          exact (insV_append_eq (inorderV r) (inorderV l) hal).symm
        · have hm : x ∈ inorderV (ATree.node v lv a p l r) := by
            simp [inorderV, hxv]
          simp [hm]

theorem EraseN_val (t : ATree) (x : Int) (c sz : Nat) (hbst : bstB t = true) :
    inorderV (EraseN t x c sz).1 = remV x (inorderV t) ∧
    (EraseN t x c sz).2.2 = (if x ∈ inorderV t then sz - 1 else sz) := by
  induction t generalizing x c sz with
  | nil => simp [EraseN, inorderV, remV]
  | node v lv a p l r ihl ihr =>
    rw [bstB_node_iff] at hbst
    obtain ⟨hal, har, hbl, hbr⟩ := hbst
    rw [EraseN.eq_def]
    by_cases h1 : x < v
    · simp only [h1, if_true]
      obtain ⟨ihi, ihs⟩ := ihl x c sz hbl
      have hxr : x ∉ inorderV r := fun hx =>
        absurd (lt_trans h1 (har x hx)) (lt_irrefl x)
      have hxv : x ≠ v := ne_of_lt h1
      constructor
      · rw [inorderV_EraseFixup]
        simp only [inorderV, inorderV_setPrev, ihi]
        rw [remV_append, remV_cons_ne _ (Ne.symm hxv), remV_eq_self hxr]
      · rw [ihs]
        simp only [inorderV, List.mem_append, List.mem_cons]
        by_cases hm : x ∈ inorderV l <;> simp [hm, hxr, hxv]
    · by_cases h2 : v < x
      · simp only [h1, if_false, h2, if_true]
        obtain ⟨ihi, ihs⟩ := ihr x c sz hbr
        have hxl : x ∉ inorderV l := fun hx =>
          absurd (lt_trans h2 (hal x hx)) (lt_irrefl v)
        have hxv : x ≠ v := fun h => absurd (h ▸ h2) (lt_irrefl x)
        constructor
        · rw [inorderV_EraseFixup]
          simp only [inorderV, inorderV_setPrev, ihi]
          rw [remV_append, remV_cons_ne _ (fun h => hxv h.symm),
            remV_eq_self hxl]
        · rw [ihs]
          simp only [inorderV, List.mem_append, List.mem_cons]
          by_cases hm : x ∈ inorderV r <;> simp [hm, hxl, hxv]
      · have hxv : x = v := le_antisymm (not_lt.mp h2) (not_lt.mp h1)
        subst hxv
        simp only [h1, if_false, h2]
        have hxl : x ∉ inorderV l := fun hx => absurd (hal x hx) (lt_irrefl x)
        have hxr : x ∉ inorderV r := fun hx => absurd (har x hx) (lt_irrefl x)
        have hmem : x ∈ inorderV (ATree.node x lv a p l r) := by
          simp [inorderV]
        cases l with
        | nil =>
          cases r with
          | nil =>
            constructor
            · show inorderV ATree.nil = remV x (inorderV (ATree.node x lv a p .nil .nil))
              simp [inorderV, remV_cons_eq, remV]
            · simp only at hmem ⊢
              simp [hmem]
          | node rv rlev ra rp rl rr =>
            set r := ATree.node rv rlev ra rp rl rr with hr
            obtain ⟨tl, htl⟩ := leftmostFrom_head rl rv (inorderV rr)
            have hir : inorderV r = leftmostFrom rv rl :: tl := by
              rw [hr]; exact htl
            set sv := leftmostFrom rv rl with hsv
            have hsvmem : sv ∈ inorderV r := by rw [hir]; exact List.mem_cons_self _ _
            have hsvtl : sv ∉ tl := by
              have hp : (inorderV r).Pairwise (· < ·) := (bstB_iff_pairwise r).mp hbr
              rw [hir, List.pairwise_cons] at hp
              exact fun hx => absurd (hp.1 sv hx) (lt_irrefl sv)
            obtain ⟨ihi, ihs⟩ := ihr sv c sz hbr
            have hxr' : x ∉ sv :: tl := hir ▸ hxr
            constructor
            · rw [inorderV_EraseFixup]
              simp only [inorderV, inorderV_setPrev, ihi, List.nil_append]
              rw [htl, remV_cons_eq, remV_eq_self hsvtl, remV_cons_eq,
                remV_eq_self hxr']
            · rw [ihs]
              simp [hsvmem, hmem]
        | node lval llev la lp ll lr =>
          set l := ATree.node lval llev la lp ll lr with hl
          obtain ⟨ini, hini⟩ := rightmostFrom_last lr lval (inorderV ll)
          have hil : inorderV l = ini ++ [rightmostFrom lval lr] := by
            rw [hl]; exact hini
          set pv := rightmostFrom lval lr with hpv
          have hpvmem : pv ∈ inorderV l := by
            rw [hil]; simp
          have hpvini : pv ∉ ini := by
            have hp : (inorderV l).Pairwise (· < ·) := (bstB_iff_pairwise l).mp hbl
            rw [hil, List.pairwise_append] at hp
            exact fun hx => absurd (hp.2.2 pv hx pv (List.mem_singleton.mpr rfl))
              (lt_irrefl pv)
          obtain ⟨ihi, ihs⟩ := ihl pv c sz hbl
          have e1 : remV pv ini = ini := remV_eq_self hpvini
          have e2 : remV pv [pv] = [] := by simp [remV]
          have e3 : remV x (inorderV r) = inorderV r := remV_eq_self hxr
          have e4 : remV x (ini ++ [pv]) = ini ++ [pv] :=
            remV_eq_self (hil ▸ hxl)
          constructor
          · rw [inorderV_EraseFixup]
            simp only [inorderV, inorderV_setPrev, ihi]
            rw [hini, remV_append, e1, e2, remV_append, e4, remV_cons_eq, e3]
            simp
          · rw [ihs]
            simp [hpvmem, hmem]

/-! ## Well-formedness of reachable states -/

theorem rootPrevNone_iff (t : ATree) :
    rootPrevNone t = true ↔ prevOf t = none := by
  cases t <;> simp [rootPrevNone, prevOf]

theorem length_insV (v : Int) (l : List Int) (h : l.Pairwise (· < ·)) :
    (insV v l).length = if v ∈ l then l.length else l.length + 1 := by
  induction l with
  | nil => simp [insV]
  | cons x xs ih =>
    rw [List.pairwise_cons] at h
    by_cases h1 : v < x
    · have hnot : v ∉ x :: xs := by
        intro hv
        rcases List.mem_cons.mp hv with rfl | hv
        · exact absurd h1 (lt_irrefl v)
        · exact absurd (lt_trans h1 (h.1 v hv)) (lt_irrefl v)
      simp [insV, h1, hnot]
    · by_cases h2 : x < v
      · have hvx : v ≠ x := fun hv => absurd (hv ▸ h2) (lt_irrefl x)
        simp only [insV, h1, if_false, h2, if_true, List.length_cons,
          ih h.2, List.mem_cons, hvx, false_or]
        by_cases hm : v ∈ xs <;> simp [hm]
      · have hvx : v = x := le_antisymm (not_lt.mp h2) (not_lt.mp h1)
        simp [insV, h1, h2, hvx]

theorem length_remV (v : Int) (l : List Int) (hnd : l.Nodup) :
    (remV v l).length = if v ∈ l then l.length - 1 else l.length := by
  induction l with
  | nil => simp [remV]
  | cons x xs ih =>
    rw [List.nodup_cons] at hnd
    by_cases h1 : x = v
    · subst h1
      rw [remV_cons_eq, remV_eq_self hnd.1]
      simp
    · rw [remV_cons_ne _ h1]
      simp only [List.length_cons, ih hnd.2, List.mem_cons]
      have : ¬v = x := fun h => h1 h.symm
      by_cases hm : v ∈ xs
      · have hx : 1 ≤ xs.length := List.length_pos.mpr
          (fun h => by simp [h] at hm)
        simp [hm, this]
        omega
      · simp [hm, this]

theorem WF_empty : WF SetS.empty := by
  refine ⟨rfl, rfl, rfl, rfl, List.nodup_nil, rfl⟩

theorem WF_sinsert (s : SetS) (x : Int) (h : WF s) : WF (sinsert s x) := by
  obtain ⟨hbst, hps, hrp, hlt, hnd, hsz⟩ := h
  obtain ⟨hc, hprev, hpsi, hai⟩ := SCtr_InsertN s.root x s.ctr s.ssize
  obtain ⟨hb1, hm1, hn1⟩ := hai hlt
  obtain ⟨hio, hszo⟩ := InsertN_val s.root x s.ctr s.ssize hbst
  have hpw := (bstB_iff_pairwise s.root).mp hbst
  refine ⟨?_, ?_, ?_, ?_, ?_, ?_⟩
  · rw [bstB_iff_pairwise]
    show (inorderV (InsertN s.root x s.ctr s.ssize).1).Pairwise (· < ·)
    rw [hio]
    exact pairwise_insV x _ hpw
  · exact hpsi hps
  · rw [rootPrevNone_iff]
    show prevOf (InsertN s.root x s.ctr s.ssize).1 = none
    rcases hprev with hp | hp
    · rw [hp]; rfl
    · rw [hp]
      exact (rootPrevNone_iff s.root).mp hrp
  · exact hb1
  · exact hn1 hnd
  · show (InsertN s.root x s.ctr s.ssize).2.2 =
      (inorderV (InsertN s.root x s.ctr s.ssize).1).length
    rw [hszo, hio, length_insV x _ hpw, hsz]

theorem WF_serase (s : SetS) (x : Int) (h : WF s) : WF (serase s x) := by
  obtain ⟨hbst, hps, hrp, hlt, hnd, hsz⟩ := h
  obtain ⟨hc, hprev, hpsi, hai⟩ := SCtr_EraseN s.root x s.ctr s.ssize
  obtain ⟨hb1, hm1, hn1⟩ := hai hlt
  obtain ⟨hio, hszo⟩ := EraseN_val s.root x s.ctr s.ssize hbst
  have hpw := (bstB_iff_pairwise s.root).mp hbst
  refine ⟨?_, ?_, ?_, ?_, ?_, ?_⟩
  · rw [bstB_iff_pairwise]
    show (inorderV (EraseN s.root x s.ctr s.ssize).1).Pairwise (· < ·)
    rw [hio]
    exact pairwise_remV x _ hpw
  · exact hpsi hps
  · rw [rootPrevNone_iff]
    show prevOf (EraseN s.root x s.ctr s.ssize).1 = none
    rcases hprev with hp | hp
    · rw [hp]; rfl
    · rw [hp]
      exact (rootPrevNone_iff s.root).mp hrp
  · exact hb1
  · exact hn1 hnd
  · show (EraseN s.root x s.ctr s.ssize).2.2 =
      (inorderV (EraseN s.root x s.ctr s.ssize).1).length
    rw [hszo, hio, length_remV x _ (pairwise_nodup hpw), hsz]

theorem Reachable_WF {s : SetS} (h : Reachable s) : WF s := by
  induction h with
  | empty => exact WF_empty
  | insert x _ ih => exact WF_sinsert _ x ih
  | erase x _ ih => exact WF_serase _ x ih

/-! ## Looking nodes up by address -/

theorem length_inorderV (t : ATree) : (inorderV t).length = countA t := by
  induction t with
  | nil => rfl
  | node v lv a p l r ihl ihr => simp [inorderV, countA, ihl, ihr]; omega

theorem length_addrsA (t : ATree) : (addrsA t).length = countA t := by
  induction t with
  | nil => rfl
  | node v lv a p l r ihl ihr => simp [addrsA, countA, ihl, ihr]; omega

theorem occurs_node_self (v : Int) (lv a : Nat) (p : Option Nat) (l r : ATree) :
    occurs (.node v lv a p l r) (.node v lv a p l r) := Or.inl rfl

theorem occurs_of_left {u l : ATree} (v : Int) (lv a : Nat) (p : Option Nat)
    (r : ATree) (h : occurs u l) : occurs u (.node v lv a p l r) :=
  Or.inr (Or.inl h)

theorem occurs_of_right {u r : ATree} (v : Int) (lv a : Nat) (p : Option Nat)
    (l : ATree) (h : occurs u r) : occurs u (.node v lv a p l r) :=
  Or.inr (Or.inr h)

theorem occurs_addr_mem {v : Int} {lv a : Nat} {p : Option Nat} {l r t : ATree}
    (h : occurs (.node v lv a p l r) t) : a ∈ addrsA t := by
  induction t with
  | nil => exact absurd h (by simp [occurs])
  | node v' lv' a' p' l' r' ihl ihr =>
    rcases h with h | h | h
    · cases h
      simp [addrsA]
    · simp only [addrsA, List.mem_append, List.mem_cons]
      exact Or.inl (ihl h)
    · simp only [addrsA, List.mem_append, List.mem_cons]
      exact Or.inr (Or.inr (ihr h))

theorem lookupA_eq_none {t : ATree} {x : Nat} (h : x ∉ addrsA t) :
    lookupA t x = none := by
  induction t with
  | nil => rfl
  | node v lv a p l r ihl ihr =>
    simp only [addrsA, List.mem_append, List.mem_cons] at h
    push_neg at h
    simp only [lookupA, if_neg (Ne.symm h.2.1)]
    rw [ihl h.1, ihr h.2.2]

theorem lookupA_of_occurs {v : Int} {lv a : Nat} {p : Option Nat} {l r t : ATree}
    (hnd : (addrsA t).Nodup) (h : occurs (.node v lv a p l r) t) :
    lookupA t a = some (.node v lv a p l r) := by
  induction t with
  | nil => exact absurd h (by simp [occurs])
  | node v' lv' a' p' l' r' ihl ihr =>
    have hnd' := hnd
    simp only [addrsA] at hnd'
    rw [List.nodup_middle, List.nodup_cons, List.nodup_append] at hnd'
    obtain ⟨ha', hndl, hndr, hdisj⟩ := hnd'
    rcases h with h | h | h
    · cases h
      simp [lookupA]
    · have hmem : a ∈ addrsA l' := occurs_addr_mem h
      have hne : a' ≠ a := fun he => ha' (he ▸ List.mem_append_left _ hmem)
      simp only [lookupA, if_neg hne]
      rw [ihl hndl h]
    · have hmem : a ∈ addrsA r' := occurs_addr_mem h
      have hne : a' ≠ a := fun he => ha' (he ▸ List.mem_append_right _ hmem)
      have hnl : a ∉ addrsA l' := fun hl => hdisj hl hmem
      simp only [lookupA, if_neg hne]
      rw [lookupA_eq_none hnl, ihr hndr h]

theorem addrsA_ne_nil (v : Int) (lv a : Nat) (p : Option Nat) (l r : ATree) :
    addrsA (.node v lv a p l r) ≠ [] := by
  simp [addrsA]

theorem leftmostAddr_head (t : ATree) : leftmostAddr t = (addrsA t).head? := by
  induction t with
  | nil => rfl
  | node v lv a p l r ihl ihr =>
    cases l with
    | nil => simp [leftmostAddr, addrsA]
    | node v' lv' a' p' l' r' =>
      simp only [leftmostAddr, addrsA] at ihl ⊢
      rw [ihl]
      cases haddr : addrsA l' ++ a' :: addrsA r' with
      | nil => exact absurd haddr (by simp)
      | cons z rest => simp [haddr]

theorem rightmostAddr_last (t : ATree) : rightmostAddr t = (addrsA t).getLast? := by
  induction t with
  | nil => rfl
  | node v lv a p l r ihl ihr =>
    cases r with
    | nil =>
      show some a = (addrsA l ++ a :: addrsA ATree.nil).getLast?
      rw [show addrsA ATree.nil = [] from rfl, List.getLast?_concat]
    | node v' lv' a' p' l' r' =>
      simp only [rightmostAddr, addrsA] at ihr ⊢
      rw [ihr]
      rcases List.eq_nil_or_concat (addrsA l' ++ a' :: addrsA r') with h | ⟨ini, z, h⟩
      · exact absurd h (by simp)
      · rw [h, List.concat_eq_append, List.getLast?_concat]
        have : addrsA l ++ a :: (ini ++ [z]) = (addrsA l ++ a :: ini) ++ [z] := by
          simp
        rw [this, List.getLast?_concat]

/-! ## `operator++` visits the in-order positions -/

theorem rootVal_mem (v : Int) (lv a : Nat) (p : Option Nat) (l r : ATree) :
    v ∈ inorderV (.node v lv a p l r) := by
  simp [inorderV]

theorem chainIncr_append (root : ATree) (k : Option Nat) :
    ∀ (l1 l2 : List Nat),
      chainIncr root l1 (match l2 with | [] => k | y :: _ => some y) →
      chainIncr root l2 k →
      chainIncr root (l1 ++ l2) k := by
  intro l1
  induction l1 with
  | nil => intro l2 _ h2; exact h2
  | cons x xs ih =>
    intro l2 h1 h2
    cases xs with
    | nil =>
      cases l2 with
      | nil => exact h1
      | cons y rest =>
        exact ⟨h1, h2⟩
    | cons x2 xs' =>
      obtain ⟨hx, hrest⟩ := h1
      exact ⟨hx, ih l2 hrest h2⟩

theorem incrAux (root : ATree) (hnd : (addrsA root).Nodup) :
    ∀ (t : ATree), bstB t = true → psOk t = true →
      (∀ u, occurs u t → occurs u root) →
      ∀ (d : Nat) (k : Option Nat),
        d + countA t ≤ countA root + 1 →
        (match t with
         | .nil => True
         | .node v _ _ p _ _ => ∀ f, d ≤ f → climbIncr root f v p = some k) →
        chainIncr root (addrsA t) k := by
  intro t
  induction t with
  | nil => intro _ _ _ d k _ _; exact trivial
  | node v lv a p l r ihl ihr =>
    intro hbst hps hocc d k harith hcl
    rw [bstB_node_iff] at hbst
    obtain ⟨hal, har, hbl, hbr⟩ := hbst
    rw [psOk_node_iff] at hps
    obtain ⟨hlo, hro, hpl, hpr⟩ := hps
    have hcount : countA (ATree.node v lv a p l r) = countA l + countA r + 1 := rfl
    have hlook : lookupA root a = some (ATree.node v lv a p l r) :=
      lookupA_of_occurs hnd (hocc _ (occurs_node_self v lv a p l r))
    have chainL : chainIncr root (addrsA l) (some a) := by
      refine ihl hbl hpl (fun u hu => hocc u (occurs_of_left v lv a p r hu))
        (d+1) (some a) (by omega) ?_
      cases l with
      | nil => exact trivial
      | node lval llev la lp ll lr =>
        have hlp : lp = some a := by
          rcases hlo with h | h
          · exact absurd h (by simp)
          · simpa [prevOf] using h
        subst hlp
        intro f hf
        rcases Nat.exists_eq_add_of_le hf with ⟨f', rfl⟩
        have hlv : lval < v := hal lval (rootVal_mem lval llev la _ ll lr)
        show climbIncr root (d + 1 + f') lval (some a) = some (some a)
        rw [show d + 1 + f' = (d + f') + 1 from by omega]
        simp only [climbIncr, hlook]
        rw [if_neg (asymm hlv)]
    have chainAR : chainIncr root (a :: addrsA r) k := by
      cases r with
      | nil =>
        show iterIncr root a = some k
        simp only [iterIncr, hlook]
        exact hcl (countA root + 1) (by omega)
      | node rv rlev ra rp rl rr =>
        have hrp : rp = some a := by
          rcases hro with h | h
          · exact absurd h (by simp)
          · simpa [prevOf] using h
        subst hrp
        have chainR : chainIncr root (addrsA (ATree.node rv rlev ra (some a) rl rr)) k := by
          refine ihr hbr hpr (fun u hu => hocc u (occurs_of_right v lv a p l hu))
            (d+1) k (by rw [hcount] at harith; simp [countA] at harith ⊢; omega) ?_
          intro f hf
          rcases Nat.exists_eq_add_of_le hf with ⟨f', rfl⟩
          have hrv : v < rv := har rv (rootVal_mem rv rlev ra _ rl rr)
          show climbIncr root (d + 1 + f') rv (some a) = some k
          rw [show d + 1 + f' = (d + f') + 1 from by omega]
          simp only [climbIncr, hlook]
          rw [if_pos hrv]
          exact hcl (d + f') (by omega)
        cases hra : addrsA (ATree.node rv rlev ra (some a) rl rr) with
        | nil => exact absurd hra (addrsA_ne_nil rv rlev ra _ rl rr)
        | cons h0 rest =>
          rw [hra] at chainR
          have hstep : iterIncr root a = some (some h0) := by
            simp only [iterIncr, hlook]
            have : leftmostAddr (ATree.node rv rlev ra (some a) rl rr) = some h0 := by
              rw [leftmostAddr_head, hra]
              rfl
            rw [this]
          exact ⟨hstep, chainR⟩
    show chainIncr root (addrsA l ++ a :: addrsA r) k
    refine chainIncr_append root k (addrsA l) (a :: addrsA r) ?_ chainAR
    exact chainL

theorem chainIncr_whole (root : ATree) (hbst : bstB root = true)
    (hps : psOk root = true) (hrp : rootPrevNone root = true)
    (hnd : (addrsA root).Nodup) :
    chainIncr root (addrsA root) none := by
  cases root with
  | nil => exact trivial
  | node v lv a p l r =>
    have hpn : p = none := by simpa [rootPrevNone] using hrp
    subst hpn
    refine incrAux _ hnd _ hbst hps (fun u hu => hu) 1 none (by omega) ?_
    intro f hf
    rcases Nat.exists_eq_add_of_le hf with ⟨f', rfl⟩
    rw [show 1 + f' = f' + 1 from by omega]
    rfl

theorem chainIncr_tail (root : ATree) (k : Option Nat) :
    ∀ l, chainIncr root l k → chainIncr root l.tail k := by
  intro l h
  match l, h with
  | [], _ => exact trivial
  | [x], _ => exact trivial
  | x :: y :: rest, ⟨_, h2⟩ => exact h2

theorem chainIncr_adj (root : ATree) (k : Option Nat) :
    ∀ l1 x y l2, chainIncr root (l1 ++ x :: y :: l2) k →
      iterIncr root x = some (some y) := by
  intro l1
  induction l1 with
  | nil => intro x y l2 h; exact h.1
  | cons z zs ih =>
    intro x y l2 h
    exact ih x y l2 (chainIncr_tail root k _ h)

theorem chainIncr_last (root : ATree) (k : Option Nat) :
    ∀ l1 x, chainIncr root (l1 ++ [x]) k → iterIncr root x = some k := by
  intro l1
  induction l1 with
  | nil => intro x h; exact h
  | cons z zs ih =>
    intro x h
    exact ih x (chainIncr_tail root k _ h)

/-! ## `operator--` visits the in-order positions backwards -/

theorem chainDecr_append (root : ATree) :
    ∀ (l1 l2 : List Nat) (k : Option Nat), chainDecr root k l1 →
      chainDecr root (match l1.getLast? with
        | none => k
        | some z => some z) l2 →
      chainDecr root k (l1 ++ l2) := by
  intro l1
  induction l1 with
  | nil => intro l2 k _ h2; exact h2
  | cons x xs ih =>
    intro l2 k h1 h2
    obtain ⟨hx, hrest⟩ := h1
    refine ⟨hx, ih l2 (some x) hrest ?_⟩
    cases xs with
    | nil => exact h2
    | cons x2 xs' =>
      rw [List.getLast?_cons_cons] at h2
      exact h2

theorem decAux (root : ATree) (hnd : (addrsA root).Nodup) :
    ∀ (t : ATree), bstB t = true → psOk t = true →
      (∀ u, occurs u t → occurs u root) →
      ∀ (d : Nat) (k : Option Nat),
        d + countA t ≤ countA root + 1 →
        (match t with
         | .nil => True
         | .node v _ _ p _ _ => ∀ f, d ≤ f → climbDecr root f v p = some k) →
        chainDecr root k (addrsA t) := by
  intro t
  induction t with
  | nil => intro _ _ _ d k _ _; exact trivial
  | node v lv a p l r ihl ihr =>
    intro hbst hps hocc d k harith hcl
    rw [bstB_node_iff] at hbst
    obtain ⟨hal, har, hbl, hbr⟩ := hbst
    rw [psOk_node_iff] at hps
    obtain ⟨hlo, hro, hpl, hpr⟩ := hps
    have hcount : countA (ATree.node v lv a p l r) = countA l + countA r + 1 := rfl
    have hlook : lookupA root a = some (ATree.node v lv a p l r) :=
      lookupA_of_occurs hnd (hocc _ (occurs_node_self v lv a p l r))
    have chainL : chainDecr root k (addrsA l) := by
      refine ihl hbl hpl (fun u hu => hocc u (occurs_of_left v lv a p r hu))
        (d+1) k (by omega) ?_
      cases l with
      | nil => exact trivial
      | node lval llev la lp ll lr =>
        have hlp : lp = some a := by
          rcases hlo with h | h
          · exact absurd h (by simp)
          · simpa [prevOf] using h
        subst hlp
        intro f hf
        rcases Nat.exists_eq_add_of_le hf with ⟨f', rfl⟩
        have hlv : lval < v := hal lval (rootVal_mem lval llev la _ ll lr)
        show climbDecr root (d + 1 + f') lval (some a) = some k
        rw [show d + 1 + f' = (d + f') + 1 from by omega]
        simp only [climbDecr, hlook]
        rw [if_pos hlv]
        exact hcl (d + f') (by omega)
    have chainAR : chainDecr root (match (addrsA l).getLast? with
        | none => k
        | some z => some z) (a :: addrsA r) := by
      have hstep : iterDecr root (some a) = some (match (addrsA l).getLast? with
          | none => k
          | some z => some z) := by
        cases l with
        | nil =>
          simp only [iterDecr, hlook]
          show climbDecr root (countA root + 1) v p = some _
          rw [hcl (countA root + 1) (by omega)]
          rfl
        | node lval llev la lp ll lr =>
          simp only [iterDecr, hlook]
          rw [rightmostAddr_last]
          rcases List.eq_nil_or_concat (addrsA (ATree.node lval llev la lp ll lr))
            with h | ⟨ini, z, h⟩
          · exact absurd h (addrsA_ne_nil lval llev la lp ll lr)
          · rw [h, List.concat_eq_append, List.getLast?_concat]
      have chainR : chainDecr root (some a) (addrsA r) := by
        cases r with
        | nil => exact trivial
        | node rv rlev ra rp rl rr =>
          have hrp : rp = some a := by
            rcases hro with h | h
            · exact absurd h (by simp)
            · simpa [prevOf] using h
          subst hrp
          refine ihr hbr hpr (fun u hu => hocc u (occurs_of_right v lv a p l hu))
            (d+1) (some a)
            (by rw [hcount] at harith; simp [countA] at harith ⊢; omega) ?_
          intro f hf
          rcases Nat.exists_eq_add_of_le hf with ⟨f', rfl⟩
          have hrv : v < rv := har rv (rootVal_mem rv rlev ra _ rl rr)
          show climbDecr root (d + 1 + f') rv (some a) = some (some a)
          rw [show d + 1 + f' = (d + f') + 1 from by omega]
          simp only [climbDecr, hlook]
          rw [if_neg (asymm hrv)]
      exact ⟨hstep, chainR⟩
    show chainDecr root k (addrsA l ++ a :: addrsA r)
    exact chainDecr_append root (addrsA l) (a :: addrsA r) k chainL chainAR

theorem chainDecr_whole (root : ATree) (hbst : bstB root = true)
    (hps : psOk root = true) (hrp : rootPrevNone root = true)
    (hnd : (addrsA root).Nodup) :
    chainDecr root none (addrsA root) := by
  cases root with
  | nil => exact trivial
  | node v lv a p l r =>
    have hpn : p = none := by simpa [rootPrevNone] using hrp
    subst hpn
    refine decAux _ hnd _ hbst hps (fun u hu => hu) 1 none (by omega) ?_
    intro f hf
    rcases Nat.exists_eq_add_of_le hf with ⟨f', rfl⟩
    rw [show 1 + f' = f' + 1 from by omega]
    rfl

theorem chainDecr_adj (root : ATree) :
    ∀ l1 x y l2 k, chainDecr root k (l1 ++ x :: y :: l2) →
      iterDecr root (some y) = some (some x) := by
  intro l1
  induction l1 with
  | nil => intro x y l2 k h; exact h.2.1
  | cons z zs ih =>
    intro x y l2 k h
    exact ih x y l2 (some z) h.2

theorem chainDecr_head (root : ATree) (k : Option Nat) (x : Nat) (rest : List Nat)
    (h : chainDecr root k (x :: rest)) : iterDecr root (some x) = some k := h.1

theorem iterDecr_none_eq (root : ATree) :
    iterDecr root none = some ((addrsA root).getLast?) := by
  cases root with
  | nil => rfl
  | node v lv a p l r =>
    simp only [iterDecr]
    rw [rightmostAddr_last]
    rcases List.eq_nil_or_concat (addrsA (ATree.node v lv a p l r))
      with h | ⟨ini, z, h⟩
    · exact absurd h (addrsA_ne_nil v lv a p l r)
    · rw [h, List.concat_eq_append, List.getLast?_concat]

/-! ## Indexed forms of the iterator chains -/

theorem list_decomp_two {l : List Nat} {i : Nat} (hi : i + 1 < l.length) :
    l = l.take i ++ l.get ⟨i, by omega⟩ ::
      (l.get ⟨i+1, hi⟩ :: l.drop (i+2)) := by
  have h1 := List.take_append_drop i l
  rw [List.drop_eq_getElem_cons (show i < l.length by omega),
    List.drop_eq_getElem_cons hi] at h1
  exact h1.symm

theorem list_decomp_one {l : List Nat} {i : Nat} (hi : i < l.length)
    (hlast : i + 1 = l.length) :
    l = l.take i ++ [l.get ⟨i, hi⟩] := by
  have h1 := List.take_append_drop i l
  rw [List.drop_eq_getElem_cons hi] at h1
  have h2 : l.drop (i+1) = [] := List.drop_eq_nil_of_le (by omega)
  rw [h2] at h1
  exact h1.symm

theorem chainIncr_at (root : ATree) (l : List Nat) (k : Option Nat)
    (h : chainIncr root l k) (i : Nat) (hi : i < l.length) :
    iterIncr root (l.get ⟨i, hi⟩) =
      some (match l.get? (i+1) with
        | some y => some y
        | none => k) := by
  by_cases hlt : i + 1 < l.length
  · have hd := list_decomp_two hlt
    rw [hd] at h
    have := chainIncr_adj root k _ _ _ _ h
    rw [this]
    rw [List.get?_eq_getElem?, List.getElem?_eq_getElem hlt]
    rfl
  · have hlast : i + 1 = l.length := by omega
    have hd := list_decomp_one hi hlast
    rw [hd] at h
    have := chainIncr_last root k _ _ h
    rw [this]
    rw [List.get?_eq_getElem?, List.getElem?_eq_none (by omega)]

theorem chainDecr_at (root : ATree) (l : List Nat) (k : Option Nat)
    (h : chainDecr root k l) (i : Nat) (hi : i + 1 < l.length) :
    iterDecr root (some (l.get ⟨i+1, hi⟩)) =
      some (some (l.get ⟨i, by omega⟩)) := by
  have hd := list_decomp_two hi
  rw [hd] at h
  exact chainDecr_adj root _ _ _ _ _ h

theorem chainDecr_first (root : ATree) (l : List Nat) (k : Option Nat)
    (h : chainDecr root k l) (hi : 0 < l.length) :
    iterDecr root (some (l.get ⟨0, hi⟩)) = some k := by
  cases l with
  | nil => simp at hi
  | cons x rest => exact h.1

theorem Reachable_foldl (ops : List (Bool × Int)) :
    ∀ (s : SetS), Reachable s →
      Reachable (ops.foldl applyOp s) := by
  induction ops with
  | nil => exact fun s hs => hs
  | cons op rest ih =>
    intro s hs
    rcases op with ⟨b, v⟩
    cases b
    · exact ih _ (Reachable.erase v hs)
    · exact ih _ (Reachable.insert v hs)

theorem Reachable_applyOps (ops : List (Bool × Int)) :
    Reachable (applyOps ops) :=
  Reachable_foldl ops SetS.empty Reachable.empty

/-! ## The claims -/

/-- C1: the specification claims the AA-tree level invariants (absent
subtree = level 0, leaves level 1, left child exactly one level below,
right child at most one level below, no two consecutive horizontal right
links) hold after every public mutation.  The code violates this: starting
from the reachable state `{1,2,3,4}` (built by four inserts), `erase(1)`
leaves the root at level 2 with an absent left child, because
`DecreaseLevel` only lowers a node's level when BOTH children exist.  This
theorem evaluates the code at that failing input. -/
theorem claim_C1 :
    Reachable (applyOps [(true,1),(true,2),(true,3),(true,4),(false,1)]) ∧
      aaInvB (applyOps [(true,1),(true,2),(true,3),(true,4),(false,1)]).root
        = false :=
  ⟨Reachable_applyOps _, by decide⟩

set_option maxHeartbeats 1000000 in
/-- C2: the specification claims height ≤ ⌈2·log₂(size+1)⌉ for every
reachable state.  The code violates this: the 37-operation sequence
`opsC2` reaches a state of size 7 whose tree is a right chain of height 7,
exceeding the bound ⌈2·log₂8⌉ = 6 (the same `DecreaseLevel` defect leaves
inflated levels that permanently disable the `Split` rebalancing).  This
theorem evaluates the code at that failing input. -/
theorem claim_C2 :
    Reachable (applyOps opsC2) ∧ (applyOps opsC2).ssize = 7 ∧
      heightA (applyOps opsC2).root = 7 ∧ heightBound (applyOps opsC2).ssize = 6 := by
  have e1 : applyOp SetS.empty (true,1) = (SetS.mk (ATree.node 1 1 0 none ATree.nil ATree.nil) 1 1) := by decide
  have e2 : applyOp (SetS.mk (ATree.node 1 1 0 none ATree.nil ATree.nil) 1 1) (true,2) = (SetS.mk (ATree.node 1 1 0 none ATree.nil (ATree.node 2 1 1 (some 0) ATree.nil ATree.nil)) 2 2) := by decide
  have e3 : applyOp (SetS.mk (ATree.node 1 1 0 none ATree.nil (ATree.node 2 1 1 (some 0) ATree.nil ATree.nil)) 2 2) (true,3) = (SetS.mk (ATree.node 2 2 4 none (ATree.node 1 1 3 (some 4) ATree.nil ATree.nil) (ATree.node 3 1 2 (some 4) ATree.nil ATree.nil)) 3 5) := by decide
  have e4 : applyOp (SetS.mk (ATree.node 2 2 4 none (ATree.node 1 1 3 (some 4) ATree.nil ATree.nil) (ATree.node 3 1 2 (some 4) ATree.nil ATree.nil)) 3 5) (true,4) = (SetS.mk (ATree.node 2 2 4 none (ATree.node 1 1 3 (some 4) ATree.nil ATree.nil) (ATree.node 3 1 2 (some 4) ATree.nil (ATree.node 4 1 5 (some 2) ATree.nil ATree.nil))) 4 6) := by decide
  have e5 : applyOp (SetS.mk (ATree.node 2 2 4 none (ATree.node 1 1 3 (some 4) ATree.nil ATree.nil) (ATree.node 3 1 2 (some 4) ATree.nil (ATree.node 4 1 5 (some 2) ATree.nil ATree.nil))) 4 6) (false,1) = (SetS.mk (ATree.node 2 2 4 none ATree.nil (ATree.node 3 1 2 (some 4) ATree.nil (ATree.node 4 1 5 (some 2) ATree.nil ATree.nil))) 3 6) := by decide
  have e6 : applyOp (SetS.mk (ATree.node 2 2 4 none ATree.nil (ATree.node 3 1 2 (some 4) ATree.nil (ATree.node 4 1 5 (some 2) ATree.nil ATree.nil))) 3 6) (true,5) = (SetS.mk (ATree.node 2 2 4 none ATree.nil (ATree.node 4 2 8 (some 4) (ATree.node 3 1 7 (some 8) ATree.nil ATree.nil) (ATree.node 5 1 6 (some 8) ATree.nil ATree.nil))) 4 9) := by decide
  have e7 : applyOp (SetS.mk (ATree.node 2 2 4 none ATree.nil (ATree.node 4 2 8 (some 4) (ATree.node 3 1 7 (some 8) ATree.nil ATree.nil) (ATree.node 5 1 6 (some 8) ATree.nil ATree.nil))) 4 9) (true,6) = (SetS.mk (ATree.node 2 2 4 none ATree.nil (ATree.node 4 2 8 (some 4) (ATree.node 3 1 7 (some 8) ATree.nil ATree.nil) (ATree.node 5 1 6 (some 8) ATree.nil (ATree.node 6 1 9 (some 6) ATree.nil ATree.nil)))) 5 10) := by decide
  have e8 : applyOp (SetS.mk (ATree.node 2 2 4 none ATree.nil (ATree.node 4 2 8 (some 4) (ATree.node 3 1 7 (some 8) ATree.nil ATree.nil) (ATree.node 5 1 6 (some 8) ATree.nil (ATree.node 6 1 9 (some 6) ATree.nil ATree.nil)))) 5 10) (true,7) = (SetS.mk (ATree.node 4 3 14 none (ATree.node 2 2 13 (some 14) ATree.nil (ATree.node 3 1 7 (some 13) ATree.nil ATree.nil)) (ATree.node 6 2 12 (some 14) (ATree.node 5 1 11 (some 12) ATree.nil ATree.nil) (ATree.node 7 1 10 (some 12) ATree.nil ATree.nil))) 6 15) := by decide
  have e9 : applyOp (SetS.mk (ATree.node 4 3 14 none (ATree.node 2 2 13 (some 14) ATree.nil (ATree.node 3 1 7 (some 13) ATree.nil ATree.nil)) (ATree.node 6 2 12 (some 14) (ATree.node 5 1 11 (some 12) ATree.nil ATree.nil) (ATree.node 7 1 10 (some 12) ATree.nil ATree.nil))) 6 15) (false,3) = (SetS.mk (ATree.node 4 3 14 none (ATree.node 2 2 13 (some 14) ATree.nil ATree.nil) (ATree.node 6 2 12 (some 14) (ATree.node 5 1 11 (some 12) ATree.nil ATree.nil) (ATree.node 7 1 10 (some 12) ATree.nil ATree.nil))) 5 15) := by decide
  have e10 : applyOp (SetS.mk (ATree.node 4 3 14 none (ATree.node 2 2 13 (some 14) ATree.nil ATree.nil) (ATree.node 6 2 12 (some 14) (ATree.node 5 1 11 (some 12) ATree.nil ATree.nil) (ATree.node 7 1 10 (some 12) ATree.nil ATree.nil))) 5 15) (false,2) = (SetS.mk (ATree.node 4 3 14 none ATree.nil (ATree.node 6 2 12 (some 14) (ATree.node 5 1 11 (some 12) ATree.nil ATree.nil) (ATree.node 7 1 10 (some 12) ATree.nil ATree.nil))) 4 15) := by decide
  have e11 : applyOp (SetS.mk (ATree.node 4 3 14 none ATree.nil (ATree.node 6 2 12 (some 14) (ATree.node 5 1 11 (some 12) ATree.nil ATree.nil) (ATree.node 7 1 10 (some 12) ATree.nil ATree.nil))) 4 15) (false,5) = (SetS.mk (ATree.node 4 3 14 none ATree.nil (ATree.node 6 2 12 (some 14) ATree.nil (ATree.node 7 1 10 (some 12) ATree.nil ATree.nil))) 3 15) := by decide
  have e12 : applyOp (SetS.mk (ATree.node 4 3 14 none ATree.nil (ATree.node 6 2 12 (some 14) ATree.nil (ATree.node 7 1 10 (some 12) ATree.nil ATree.nil))) 3 15) (true,8) = (SetS.mk (ATree.node 4 3 14 none ATree.nil (ATree.node 6 2 12 (some 14) ATree.nil (ATree.node 7 1 10 (some 12) ATree.nil (ATree.node 8 1 15 (some 10) ATree.nil ATree.nil)))) 4 16) := by decide
  have e13 : applyOp (SetS.mk (ATree.node 4 3 14 none ATree.nil (ATree.node 6 2 12 (some 14) ATree.nil (ATree.node 7 1 10 (some 12) ATree.nil (ATree.node 8 1 15 (some 10) ATree.nil ATree.nil)))) 4 16) (true,9) = (SetS.mk (ATree.node 4 3 14 none ATree.nil (ATree.node 6 2 12 (some 14) ATree.nil (ATree.node 8 2 18 (some 12) (ATree.node 7 1 17 (some 18) ATree.nil ATree.nil) (ATree.node 9 1 16 (some 18) ATree.nil ATree.nil)))) 5 19) := by decide
  have e14 : applyOp (SetS.mk (ATree.node 4 3 14 none ATree.nil (ATree.node 6 2 12 (some 14) ATree.nil (ATree.node 8 2 18 (some 12) (ATree.node 7 1 17 (some 18) ATree.nil ATree.nil) (ATree.node 9 1 16 (some 18) ATree.nil ATree.nil)))) 5 19) (false,7) = (SetS.mk (ATree.node 4 3 14 none ATree.nil (ATree.node 6 2 12 (some 14) ATree.nil (ATree.node 8 2 18 (some 12) ATree.nil (ATree.node 9 1 16 (some 18) ATree.nil ATree.nil)))) 4 19) := by decide
  have e15 : applyOp (SetS.mk (ATree.node 4 3 14 none ATree.nil (ATree.node 6 2 12 (some 14) ATree.nil (ATree.node 8 2 18 (some 12) ATree.nil (ATree.node 9 1 16 (some 18) ATree.nil ATree.nil)))) 4 19) (true,10) = (SetS.mk (ATree.node 4 3 14 none ATree.nil (ATree.node 6 2 12 (some 14) ATree.nil (ATree.node 8 2 18 (some 12) ATree.nil (ATree.node 9 1 16 (some 18) ATree.nil (ATree.node 10 1 19 (some 16) ATree.nil ATree.nil))))) 5 20) := by decide
  have e16 : applyOp (SetS.mk (ATree.node 4 3 14 none ATree.nil (ATree.node 6 2 12 (some 14) ATree.nil (ATree.node 8 2 18 (some 12) ATree.nil (ATree.node 9 1 16 (some 18) ATree.nil (ATree.node 10 1 19 (some 16) ATree.nil ATree.nil))))) 5 20) (true,11) = (SetS.mk (ATree.node 4 3 14 none ATree.nil (ATree.node 8 3 24 (some 14) (ATree.node 6 2 23 (some 24) ATree.nil ATree.nil) (ATree.node 10 2 22 (some 24) (ATree.node 9 1 21 (some 22) ATree.nil ATree.nil) (ATree.node 11 1 20 (some 22) ATree.nil ATree.nil)))) 6 25) := by decide
  have e17 : applyOp (SetS.mk (ATree.node 4 3 14 none ATree.nil (ATree.node 8 3 24 (some 14) (ATree.node 6 2 23 (some 24) ATree.nil ATree.nil) (ATree.node 10 2 22 (some 24) (ATree.node 9 1 21 (some 22) ATree.nil ATree.nil) (ATree.node 11 1 20 (some 22) ATree.nil ATree.nil)))) 6 25) (false,6) = (SetS.mk (ATree.node 4 3 14 none ATree.nil (ATree.node 8 3 24 (some 14) ATree.nil (ATree.node 10 2 22 (some 24) (ATree.node 9 1 21 (some 22) ATree.nil ATree.nil) (ATree.node 11 1 20 (some 22) ATree.nil ATree.nil)))) 5 25) := by decide
  have e18 : applyOp (SetS.mk (ATree.node 4 3 14 none ATree.nil (ATree.node 8 3 24 (some 14) ATree.nil (ATree.node 10 2 22 (some 24) (ATree.node 9 1 21 (some 22) ATree.nil ATree.nil) (ATree.node 11 1 20 (some 22) ATree.nil ATree.nil)))) 5 25) (false,9) = (SetS.mk (ATree.node 4 3 14 none ATree.nil (ATree.node 8 3 24 (some 14) ATree.nil (ATree.node 10 2 22 (some 24) ATree.nil (ATree.node 11 1 20 (some 22) ATree.nil ATree.nil)))) 4 25) := by decide
  have e19 : applyOp (SetS.mk (ATree.node 4 3 14 none ATree.nil (ATree.node 8 3 24 (some 14) ATree.nil (ATree.node 10 2 22 (some 24) ATree.nil (ATree.node 11 1 20 (some 22) ATree.nil ATree.nil)))) 4 25) (true,12) = (SetS.mk (ATree.node 4 3 14 none ATree.nil (ATree.node 8 3 24 (some 14) ATree.nil (ATree.node 10 2 22 (some 24) ATree.nil (ATree.node 11 1 20 (some 22) ATree.nil (ATree.node 12 1 25 (some 20) ATree.nil ATree.nil))))) 5 26) := by decide
  have e20 : applyOp (SetS.mk (ATree.node 4 3 14 none ATree.nil (ATree.node 8 3 24 (some 14) ATree.nil (ATree.node 10 2 22 (some 24) ATree.nil (ATree.node 11 1 20 (some 22) ATree.nil (ATree.node 12 1 25 (some 20) ATree.nil ATree.nil))))) 5 26) (true,13) = (SetS.mk (ATree.node 4 3 14 none ATree.nil (ATree.node 8 3 24 (some 14) ATree.nil (ATree.node 10 2 22 (some 24) ATree.nil (ATree.node 12 2 28 (some 22) (ATree.node 11 1 27 (some 28) ATree.nil ATree.nil) (ATree.node 13 1 26 (some 28) ATree.nil ATree.nil))))) 6 29) := by decide
  have e21 : applyOp (SetS.mk (ATree.node 4 3 14 none ATree.nil (ATree.node 8 3 24 (some 14) ATree.nil (ATree.node 10 2 22 (some 24) ATree.nil (ATree.node 12 2 28 (some 22) (ATree.node 11 1 27 (some 28) ATree.nil ATree.nil) (ATree.node 13 1 26 (some 28) ATree.nil ATree.nil))))) 6 29) (false,11) = (SetS.mk (ATree.node 4 3 14 none ATree.nil (ATree.node 8 3 24 (some 14) ATree.nil (ATree.node 10 2 22 (some 24) ATree.nil (ATree.node 12 2 28 (some 22) ATree.nil (ATree.node 13 1 26 (some 28) ATree.nil ATree.nil))))) 5 29) := by decide
  have e22 : applyOp (SetS.mk (ATree.node 4 3 14 none ATree.nil (ATree.node 8 3 24 (some 14) ATree.nil (ATree.node 10 2 22 (some 24) ATree.nil (ATree.node 12 2 28 (some 22) ATree.nil (ATree.node 13 1 26 (some 28) ATree.nil ATree.nil))))) 5 29) (true,14) = (SetS.mk (ATree.node 4 3 14 none ATree.nil (ATree.node 8 3 24 (some 14) ATree.nil (ATree.node 10 2 22 (some 24) ATree.nil (ATree.node 12 2 28 (some 22) ATree.nil (ATree.node 13 1 26 (some 28) ATree.nil (ATree.node 14 1 29 (some 26) ATree.nil ATree.nil)))))) 6 30) := by decide
  have e23 : applyOp (SetS.mk (ATree.node 4 3 14 none ATree.nil (ATree.node 8 3 24 (some 14) ATree.nil (ATree.node 10 2 22 (some 24) ATree.nil (ATree.node 12 2 28 (some 22) ATree.nil (ATree.node 13 1 26 (some 28) ATree.nil (ATree.node 14 1 29 (some 26) ATree.nil ATree.nil)))))) 6 30) (true,15) = (SetS.mk (ATree.node 8 4 36 none (ATree.node 4 3 35 (some 36) ATree.nil ATree.nil) (ATree.node 12 3 34 (some 36) (ATree.node 10 2 33 (some 34) ATree.nil ATree.nil) (ATree.node 14 2 32 (some 34) (ATree.node 13 1 31 (some 32) ATree.nil ATree.nil) (ATree.node 15 1 30 (some 32) ATree.nil ATree.nil)))) 7 37) := by decide
  have e24 : applyOp (SetS.mk (ATree.node 8 4 36 none (ATree.node 4 3 35 (some 36) ATree.nil ATree.nil) (ATree.node 12 3 34 (some 36) (ATree.node 10 2 33 (some 34) ATree.nil ATree.nil) (ATree.node 14 2 32 (some 34) (ATree.node 13 1 31 (some 32) ATree.nil ATree.nil) (ATree.node 15 1 30 (some 32) ATree.nil ATree.nil)))) 7 37) (false,4) = (SetS.mk (ATree.node 8 4 36 none ATree.nil (ATree.node 12 3 34 (some 36) (ATree.node 10 2 33 (some 34) ATree.nil ATree.nil) (ATree.node 14 2 32 (some 34) (ATree.node 13 1 31 (some 32) ATree.nil ATree.nil) (ATree.node 15 1 30 (some 32) ATree.nil ATree.nil)))) 6 37) := by decide
  have e25 : applyOp (SetS.mk (ATree.node 8 4 36 none ATree.nil (ATree.node 12 3 34 (some 36) (ATree.node 10 2 33 (some 34) ATree.nil ATree.nil) (ATree.node 14 2 32 (some 34) (ATree.node 13 1 31 (some 32) ATree.nil ATree.nil) (ATree.node 15 1 30 (some 32) ATree.nil ATree.nil)))) 6 37) (false,10) = (SetS.mk (ATree.node 8 4 36 none ATree.nil (ATree.node 12 3 34 (some 36) ATree.nil (ATree.node 14 2 32 (some 34) (ATree.node 13 1 31 (some 32) ATree.nil ATree.nil) (ATree.node 15 1 30 (some 32) ATree.nil ATree.nil)))) 5 37) := by decide
  have e26 : applyOp (SetS.mk (ATree.node 8 4 36 none ATree.nil (ATree.node 12 3 34 (some 36) ATree.nil (ATree.node 14 2 32 (some 34) (ATree.node 13 1 31 (some 32) ATree.nil ATree.nil) (ATree.node 15 1 30 (some 32) ATree.nil ATree.nil)))) 5 37) (false,13) = (SetS.mk (ATree.node 8 4 36 none ATree.nil (ATree.node 12 3 34 (some 36) ATree.nil (ATree.node 14 2 32 (some 34) ATree.nil (ATree.node 15 1 30 (some 32) ATree.nil ATree.nil)))) 4 37) := by decide
  have e27 : applyOp (SetS.mk (ATree.node 8 4 36 none ATree.nil (ATree.node 12 3 34 (some 36) ATree.nil (ATree.node 14 2 32 (some 34) ATree.nil (ATree.node 15 1 30 (some 32) ATree.nil ATree.nil)))) 4 37) (true,16) = (SetS.mk (ATree.node 8 4 36 none ATree.nil (ATree.node 12 3 34 (some 36) ATree.nil (ATree.node 14 2 32 (some 34) ATree.nil (ATree.node 15 1 30 (some 32) ATree.nil (ATree.node 16 1 37 (some 30) ATree.nil ATree.nil))))) 5 38) := by decide
  have e28 : applyOp (SetS.mk (ATree.node 8 4 36 none ATree.nil (ATree.node 12 3 34 (some 36) ATree.nil (ATree.node 14 2 32 (some 34) ATree.nil (ATree.node 15 1 30 (some 32) ATree.nil (ATree.node 16 1 37 (some 30) ATree.nil ATree.nil))))) 5 38) (true,17) = (SetS.mk (ATree.node 8 4 36 none ATree.nil (ATree.node 12 3 34 (some 36) ATree.nil (ATree.node 14 2 32 (some 34) ATree.nil (ATree.node 16 2 40 (some 32) (ATree.node 15 1 39 (some 40) ATree.nil ATree.nil) (ATree.node 17 1 38 (some 40) ATree.nil ATree.nil))))) 6 41) := by decide
  have e29 : applyOp (SetS.mk (ATree.node 8 4 36 none ATree.nil (ATree.node 12 3 34 (some 36) ATree.nil (ATree.node 14 2 32 (some 34) ATree.nil (ATree.node 16 2 40 (some 32) (ATree.node 15 1 39 (some 40) ATree.nil ATree.nil) (ATree.node 17 1 38 (some 40) ATree.nil ATree.nil))))) 6 41) (false,15) = (SetS.mk (ATree.node 8 4 36 none ATree.nil (ATree.node 12 3 34 (some 36) ATree.nil (ATree.node 14 2 32 (some 34) ATree.nil (ATree.node 16 2 40 (some 32) ATree.nil (ATree.node 17 1 38 (some 40) ATree.nil ATree.nil))))) 5 41) := by decide
  have e30 : applyOp (SetS.mk (ATree.node 8 4 36 none ATree.nil (ATree.node 12 3 34 (some 36) ATree.nil (ATree.node 14 2 32 (some 34) ATree.nil (ATree.node 16 2 40 (some 32) ATree.nil (ATree.node 17 1 38 (some 40) ATree.nil ATree.nil))))) 5 41) (true,18) = (SetS.mk (ATree.node 8 4 36 none ATree.nil (ATree.node 12 3 34 (some 36) ATree.nil (ATree.node 14 2 32 (some 34) ATree.nil (ATree.node 16 2 40 (some 32) ATree.nil (ATree.node 17 1 38 (some 40) ATree.nil (ATree.node 18 1 41 (some 38) ATree.nil ATree.nil)))))) 6 42) := by decide
  have e31 : applyOp (SetS.mk (ATree.node 8 4 36 none ATree.nil (ATree.node 12 3 34 (some 36) ATree.nil (ATree.node 14 2 32 (some 34) ATree.nil (ATree.node 16 2 40 (some 32) ATree.nil (ATree.node 17 1 38 (some 40) ATree.nil (ATree.node 18 1 41 (some 38) ATree.nil ATree.nil)))))) 6 42) (true,19) = (SetS.mk (ATree.node 8 4 36 none ATree.nil (ATree.node 12 3 34 (some 36) ATree.nil (ATree.node 16 3 46 (some 34) (ATree.node 14 2 45 (some 46) ATree.nil ATree.nil) (ATree.node 18 2 44 (some 46) (ATree.node 17 1 43 (some 44) ATree.nil ATree.nil) (ATree.node 19 1 42 (some 44) ATree.nil ATree.nil))))) 7 47) := by decide
  have e32 : applyOp (SetS.mk (ATree.node 8 4 36 none ATree.nil (ATree.node 12 3 34 (some 36) ATree.nil (ATree.node 16 3 46 (some 34) (ATree.node 14 2 45 (some 46) ATree.nil ATree.nil) (ATree.node 18 2 44 (some 46) (ATree.node 17 1 43 (some 44) ATree.nil ATree.nil) (ATree.node 19 1 42 (some 44) ATree.nil ATree.nil))))) 7 47) (false,14) = (SetS.mk (ATree.node 8 4 36 none ATree.nil (ATree.node 12 3 34 (some 36) ATree.nil (ATree.node 16 3 46 (some 34) ATree.nil (ATree.node 18 2 44 (some 46) (ATree.node 17 1 43 (some 44) ATree.nil ATree.nil) (ATree.node 19 1 42 (some 44) ATree.nil ATree.nil))))) 6 47) := by decide
  have e33 : applyOp (SetS.mk (ATree.node 8 4 36 none ATree.nil (ATree.node 12 3 34 (some 36) ATree.nil (ATree.node 16 3 46 (some 34) ATree.nil (ATree.node 18 2 44 (some 46) (ATree.node 17 1 43 (some 44) ATree.nil ATree.nil) (ATree.node 19 1 42 (some 44) ATree.nil ATree.nil))))) 6 47) (false,17) = (SetS.mk (ATree.node 8 4 36 none ATree.nil (ATree.node 12 3 34 (some 36) ATree.nil (ATree.node 16 3 46 (some 34) ATree.nil (ATree.node 18 2 44 (some 46) ATree.nil (ATree.node 19 1 42 (some 44) ATree.nil ATree.nil))))) 5 47) := by decide
  have e34 : applyOp (SetS.mk (ATree.node 8 4 36 none ATree.nil (ATree.node 12 3 34 (some 36) ATree.nil (ATree.node 16 3 46 (some 34) ATree.nil (ATree.node 18 2 44 (some 46) ATree.nil (ATree.node 19 1 42 (some 44) ATree.nil ATree.nil))))) 5 47) (true,20) = (SetS.mk (ATree.node 8 4 36 none ATree.nil (ATree.node 12 3 34 (some 36) ATree.nil (ATree.node 16 3 46 (some 34) ATree.nil (ATree.node 18 2 44 (some 46) ATree.nil (ATree.node 19 1 42 (some 44) ATree.nil (ATree.node 20 1 47 (some 42) ATree.nil ATree.nil)))))) 6 48) := by decide
  have e35 : applyOp (SetS.mk (ATree.node 8 4 36 none ATree.nil (ATree.node 12 3 34 (some 36) ATree.nil (ATree.node 16 3 46 (some 34) ATree.nil (ATree.node 18 2 44 (some 46) ATree.nil (ATree.node 19 1 42 (some 44) ATree.nil (ATree.node 20 1 47 (some 42) ATree.nil ATree.nil)))))) 6 48) (true,21) = (SetS.mk (ATree.node 8 4 36 none ATree.nil (ATree.node 12 3 34 (some 36) ATree.nil (ATree.node 16 3 46 (some 34) ATree.nil (ATree.node 18 2 44 (some 46) ATree.nil (ATree.node 20 2 50 (some 44) (ATree.node 19 1 49 (some 50) ATree.nil ATree.nil) (ATree.node 21 1 48 (some 50) ATree.nil ATree.nil)))))) 7 51) := by decide
  have e36 : applyOp (SetS.mk (ATree.node 8 4 36 none ATree.nil (ATree.node 12 3 34 (some 36) ATree.nil (ATree.node 16 3 46 (some 34) ATree.nil (ATree.node 18 2 44 (some 46) ATree.nil (ATree.node 20 2 50 (some 44) (ATree.node 19 1 49 (some 50) ATree.nil ATree.nil) (ATree.node 21 1 48 (some 50) ATree.nil ATree.nil)))))) 7 51) (false,19) = (SetS.mk (ATree.node 8 4 36 none ATree.nil (ATree.node 12 3 34 (some 36) ATree.nil (ATree.node 16 3 46 (some 34) ATree.nil (ATree.node 18 2 44 (some 46) ATree.nil (ATree.node 20 2 50 (some 44) ATree.nil (ATree.node 21 1 48 (some 50) ATree.nil ATree.nil)))))) 6 51) := by decide
  have e37 : applyOp (SetS.mk (ATree.node 8 4 36 none ATree.nil (ATree.node 12 3 34 (some 36) ATree.nil (ATree.node 16 3 46 (some 34) ATree.nil (ATree.node 18 2 44 (some 46) ATree.nil (ATree.node 20 2 50 (some 44) ATree.nil (ATree.node 21 1 48 (some 50) ATree.nil ATree.nil)))))) 6 51) (true,22) = (SetS.mk (ATree.node 8 4 36 none ATree.nil (ATree.node 12 3 34 (some 36) ATree.nil (ATree.node 16 3 46 (some 34) ATree.nil (ATree.node 18 2 44 (some 46) ATree.nil (ATree.node 20 2 50 (some 44) ATree.nil (ATree.node 21 1 48 (some 50) ATree.nil (ATree.node 22 1 51 (some 48) ATree.nil ATree.nil))))))) 7 52) := by decide
  have hstate : applyOps opsC2 = (SetS.mk (ATree.node 8 4 36 none ATree.nil (ATree.node 12 3 34 (some 36) ATree.nil (ATree.node 16 3 46 (some 34) ATree.nil (ATree.node 18 2 44 (some 46) ATree.nil (ATree.node 20 2 50 (some 44) ATree.nil (ATree.node 21 1 48 (some 50) ATree.nil (ATree.node 22 1 51 (some 48) ATree.nil ATree.nil))))))) 7 52) := by
    simp only [applyOps, opsC2]
    rw [List.foldl_cons, e1, List.foldl_cons, e2, List.foldl_cons, e3, List.foldl_cons, e4, List.foldl_cons, e5, List.foldl_cons, e6, List.foldl_cons, e7, List.foldl_cons, e8, List.foldl_cons, e9, List.foldl_cons, e10, List.foldl_cons, e11, List.foldl_cons, e12, List.foldl_cons, e13, List.foldl_cons, e14, List.foldl_cons, e15, List.foldl_cons, e16, List.foldl_cons, e17, List.foldl_cons, e18, List.foldl_cons, e19, List.foldl_cons, e20, List.foldl_cons, e21, List.foldl_cons, e22, List.foldl_cons, e23, List.foldl_cons, e24, List.foldl_cons, e25, List.foldl_cons, e26, List.foldl_cons, e27, List.foldl_cons, e28, List.foldl_cons, e29, List.foldl_cons, e30, List.foldl_cons, e31, List.foldl_cons, e32, List.foldl_cons, e33, List.foldl_cons, e34, List.foldl_cons, e35, List.foldl_cons, e36, List.foldl_cons, e37, List.foldl_nil]
  refine ⟨Reachable_applyOps _, ?_, ?_, ?_⟩
  · rw [hstate]
  · rw [hstate]
    decide
  · rw [hstate]
    show Nat.clog 2 64 = 6
    refine le_antisymm ?_ ?_
    · exact (Nat.le_pow_iff_clog_le (by norm_num)).mp (by norm_num)
    · have h5 := (Nat.pow_lt_iff_lt_clog (show (1:ℕ) < 2 by norm_num)).mp
        (show 2^5 < 64 by norm_num)
      omega

/-- C3: for every reachable tree state, the in-order traversal of the tree
is strictly ascending and therefore free of duplicates. -/
theorem claim_C3 (s : SetS) (hr : Reachable s) :
    List.Sorted (· < ·) (inorderV s.root) ∧ (inorderV s.root).Nodup := by
  have h := (bstB_iff_pairwise s.root).mp (Reachable_WF hr).1
  exact ⟨h, pairwise_nodup h⟩

/-- Witness for C3 at the concrete reachable state `{1,3,4,5,8}` (built by
inserting 5, 3, 8, 1, 4). -/
theorem claim_C3_witness :
    List.Sorted (· < ·)
        (inorderV (applyOps [(true,5),(true,3),(true,8),(true,1),(true,4)]).root) ∧
      (inorderV (applyOps [(true,5),(true,3),(true,8),(true,1),(true,4)]).root).Nodup :=
  claim_C3 _ (Reachable_applyOps _)

/-- C4: after every public mutation from any reachable state, the parent
back-references are consistent with the owning child edges: the root's
`PreviousNode` is null and every existing child's `PreviousNode` holds the
address of its parent node. -/
theorem claim_C4 (s : SetS) (hr : Reachable s) :
    psOk s.root = true ∧ rootPrevNone s.root = true := by
  have h := Reachable_WF hr
  exact ⟨h.2.1, h.2.2.1⟩

/-- Witness for C4 at the state `{1,2,4}` reached by inserting 1..4 and
erasing 3 (exercising both mutations, including a rebalancing erase). -/
theorem claim_C4_witness :
    psOk (applyOps [(true,1),(true,2),(true,3),(true,4),(false,3)]).root = true ∧
      rootPrevNone (applyOps [(true,1),(true,2),(true,3),(true,4),(false,3)]).root
        = true :=
  claim_C4 _ (Reachable_applyOps _)

/-- C5: in every reachable set, for the iterator at 0-indexed sorted
position `i` (`addrsA` lists node addresses in ascending value order),
`operator++` moves to position `i+1` — the end sentinel when `i` was the
last position — and `operator--` applied to that incremented iterator
returns to position `i`.  The outer `some` records that no invalid memory
access occurs. -/
theorem claim_C5 (s : SetS) (hr : Reachable s) (i : Nat)
    (hi : i < (addrsA s.root).length) :
    iterIncr s.root ((addrsA s.root).get ⟨i, hi⟩) =
      some (match (addrsA s.root).get? (i+1) with
        | some y => some y
        | none => none) ∧
    iterDecr s.root (match (addrsA s.root).get? (i+1) with
        | some y => some y
        | none => none) =
      some (some ((addrsA s.root).get ⟨i, hi⟩)) := by
  obtain ⟨hbst, hps, hrp, hlt, hnd, hsz⟩ := Reachable_WF hr
  have hinc := chainIncr_whole s.root hbst hps hrp hnd
  have hdec := chainDecr_whole s.root hbst hps hrp hnd
  constructor
  · exact chainIncr_at s.root _ none hinc i hi
  · by_cases hlt2 : i + 1 < (addrsA s.root).length
    · rw [List.get?_eq_getElem?, List.getElem?_eq_getElem hlt2]
      have := chainDecr_at s.root _ none hdec i hlt2
      simpa using this
    · rw [List.get?_eq_getElem?, List.getElem?_eq_none (by omega)]
      show iterDecr s.root none = _
      rw [iterDecr_none_eq, List.getLast?_eq_getElem?]
      have hieq : (addrsA s.root).length - 1 = i := by omega
      rw [hieq, List.getElem?_eq_getElem hi]
      rfl

/-- Witness for C5: in the two-element reachable set `{1,2}`, the iterator
at position 0 increments to position 1 and decrements back. -/
theorem claim_C5_witness :
    iterIncr (applyOps [(true,1),(true,2)]).root
        ((addrsA (applyOps [(true,1),(true,2)]).root).get ⟨0, by decide⟩) =
      some (match (addrsA (applyOps [(true,1),(true,2)]).root).get? 1 with
        | some y => some y
        | none => none) ∧
    iterDecr (applyOps [(true,1),(true,2)]).root
        (match (addrsA (applyOps [(true,1),(true,2)]).root).get? 1 with
          | some y => some y
          | none => none) =
      some (some ((addrsA (applyOps [(true,1),(true,2)]).root).get ⟨0, by decide⟩)) :=
  claim_C5 _ (Reachable_applyOps _) 0 (by decide)

/-- C7: for every reachable set, `size()` equals the number of nodes
reachable from the root; moreover an `insert` increments it exactly when
the value was new and an `erase` decrements it exactly when the value was
present. -/
theorem claim_C7 (s : SetS) (hr : Reachable s) (x : Int) :
    s.ssize = countA s.root ∧
    (sinsert s x).ssize = s.ssize + (if x ∈ inorderV s.root then 0 else 1) ∧
    (serase s x).ssize = s.ssize - (if x ∈ inorderV s.root then 1 else 0) := by
  obtain ⟨hbst, hps, hrp, hlt, hnd, hsz⟩ := Reachable_WF hr
  refine ⟨by rw [hsz, length_inorderV], ?_, ?_⟩
  · show (InsertN s.root x s.ctr s.ssize).2.2 = _
    rw [(InsertN_val s.root x s.ctr s.ssize hbst).2]
    by_cases hm : x ∈ inorderV s.root <;> simp [hm]
  · show (EraseN s.root x s.ctr s.ssize).2.2 = _
    rw [(EraseN_val s.root x s.ctr s.ssize hbst).2]
    by_cases hm : x ∈ inorderV s.root <;> simp [hm]

/-- Witness for C7 at the reachable set `{1,2}` with probe value 2. -/
theorem claim_C7_witness :
    (applyOps [(true,1),(true,2)]).ssize = countA (applyOps [(true,1),(true,2)]).root ∧
    (sinsert (applyOps [(true,1),(true,2)]) 2).ssize =
      (applyOps [(true,1),(true,2)]).ssize +
        (if (2:Int) ∈ inorderV (applyOps [(true,1),(true,2)]).root then 0 else 1) ∧
    (serase (applyOps [(true,1),(true,2)]) 2).ssize =
      (applyOps [(true,1),(true,2)]).ssize -
        (if (2:Int) ∈ inorderV (applyOps [(true,1),(true,2)]).root then 1 else 0) :=
  claim_C7 _ (Reachable_applyOps _) 2

/-- C10: decrementing an iterator at `begin()` of a non-empty reachable
set deterministically yields the end sentinel (`some none`: the ascent
climbs the left spine to the root and steps to its null parent), with no
invalid memory access (the outer `some`). -/
theorem claim_C10 (s : SetS) (hr : Reachable s) (hne : s.root ≠ .nil) :
    ∃ b, beginA s = some b ∧ iterDecr s.root (some b) = some none := by
  obtain ⟨hbst, hps, hrp, hlt, hnd, hsz⟩ := Reachable_WF hr
  have hdec := chainDecr_whole s.root hbst hps hrp hnd
  have hlen : 0 < (addrsA s.root).length := by
    cases ht : s.root with
    | nil => exact absurd ht hne
    | node v lv a p l r =>
      exact List.length_pos.mpr (addrsA_ne_nil v lv a p l r)
  refine ⟨(addrsA s.root).get ⟨0, hlen⟩, ?_, ?_⟩
  · show leftmostAddr s.root = _
    rw [leftmostAddr_head]
    rw [List.head?_eq_getElem?, List.getElem?_eq_getElem hlen]
    rfl
  · exact chainDecr_first s.root _ none hdec hlen

/-- Witness for C10 on the reachable set `{2,7}`. -/
theorem claim_C10_witness :
    ∃ b, beginA (applyOps [(true,2),(true,7)]) = some b ∧
      iterDecr (applyOps [(true,2),(true,7)]).root (some b) = some none :=
  claim_C10 _ (Reachable_applyOps _) (by decide)

/-! ## Correctness of `lower_bound` -/

theorem pairs_node (v : Int) (lv a : Nat) (p : Option Nat) (l r : ATree) :
    (inorderV (.node v lv a p l r)).zip (addrsA (.node v lv a p l r)) =
      (inorderV l).zip (addrsA l) ++ (v, a) :: (inorderV r).zip (addrsA r) := by
  show (inorderV l ++ v :: inorderV r).zip (addrsA l ++ a :: addrsA r) = _
  rw [List.zip_append (by rw [length_inorderV, length_addrsA])]
  rfl

theorem pairs_val_mem {t : ATree} {q : Int × Nat}
    (h : q ∈ (inorderV t).zip (addrsA t)) : q.1 ∈ inorderV t := by
  rcases q with ⟨x, b⟩
  exact (List.of_mem_zip h).1

theorem lowerBoundLoop_node (root : ATree) (w : Int) (v : Int) (lv a : Nat)
    (p : Option Nat) (l r : ATree) :
    lowerBoundLoop root w (.node v lv a p l r) =
      if v < w then
        match r with
        | .nil => iterIncr root a
        | .node rv rlv ra rp rl rr => lowerBoundLoop root w (.node rv rlv ra rp rl rr)
      else
        match l with
        | .nil => some (some a)
        | .node lv' llv la lp ll lr =>
          if w < v then lowerBoundLoop root w (.node lv' llv la lp ll lr)
          else some (some a) := by
  rw [lowerBoundLoop.eq_def]

theorem lbAux (root : ATree) (hnd : (addrsA root).Nodup) (w : Int)
    (hchain : chainIncr root (addrsA root) none) :
    ∀ (t : ATree), bstB t = true →
      (∀ u, occurs u t → occurs u root) →
      List.IsInfix (addrsA t) (addrsA root) →
      ∀ (kk : Option Nat),
        (match (addrsA t).getLast? with
         | some z => iterIncr root z = some kk
         | none => True) →
        t ≠ .nil →
        lowerBoundLoop root w t =
          some (match ((inorderV t).zip (addrsA t)).find?
              (fun q => decide (w ≤ q.1)) with
            | some q => some q.2
            | none => kk) := by
  intro t
  induction t with
  | nil => intro _ _ _ kk _ hne; exact absurd rfl hne
  | node v lv a p l r ihl ihr =>
    intro hbst hocc hinf kk hnext _
    rw [bstB_node_iff] at hbst
    obtain ⟨hal, har, hbl, hbr⟩ := hbst
    rw [pairs_node]
    rw [List.find?_append]
    by_cases h1 : v < w
    · have hflnone : ((inorderV l).zip (addrsA l)).find?
          (fun q => decide (w ≤ q.1)) = none := by
        rw [List.find?_eq_none]
        intro q hq
        simp only [decide_eq_true_eq, not_le]
        exact lt_trans (hal q.1 (pairs_val_mem hq)) h1
      have hvfail : (decide (w ≤ (v, a).1) : Bool) = false := by
        simp only [decide_eq_false_iff_not, not_le]
        exact h1
      rw [hflnone]
      rw [lowerBoundLoop_node, if_pos h1]
      cases r with
      | nil =>
        show iterIncr root a = _
        have hlast : (addrsA (ATree.node v lv a p l ATree.nil)).getLast? = some a := by
          show (addrsA l ++ a :: addrsA ATree.nil).getLast? = some a
          rw [List.getLast?_append_cons]
          rfl
        rw [hlast] at hnext
        rw [hnext]
        simp [List.find?_cons, hvfail, inorderV, addrsA]
      | node rv rlev ra rp rl rr =>
        show lowerBoundLoop root w (ATree.node rv rlev ra rp rl rr) = _
        have haddr_t : addrsA (ATree.node v lv a p l (ATree.node rv rlev ra rp rl rr)) =
            addrsA l ++ a :: addrsA (ATree.node rv rlev ra rp rl rr) := rfl
        have hinf_r : List.IsInfix (addrsA (ATree.node rv rlev ra rp rl rr))
            (addrsA root) := by
          refine List.IsInfix.trans ⟨addrsA l ++ [a], [], by simp [haddr_t]⟩ hinf
        have hnext_r : match (addrsA (ATree.node rv rlev ra rp rl rr)).getLast? with
            | some z => iterIncr root z = some kk
            | none => True := by
          rcases List.eq_nil_or_concat
              (addrsA (ATree.node rv rlev ra rp rl rr)) with h | ⟨ini, z, h⟩
          · exact absurd h (addrsA_ne_nil rv rlev ra rp rl rr)
          · rw [h, List.concat_eq_append, List.getLast?_concat]
            have : (addrsA (ATree.node v lv a p l
                (ATree.node rv rlev ra rp rl rr))).getLast? = some z := by
              rw [haddr_t, h]
              rw [List.getLast?_append_cons, List.concat_eq_append]
              rw [show a :: (ini ++ [z]) = (a :: ini) ++ [z] from by simp,
                List.getLast?_concat]
            rw [this] at hnext
            exact hnext
        rw [ihr hbr (fun u hu => hocc u (occurs_of_right v lv a p l hu))
          hinf_r kk hnext_r (by simp)]
        rw [List.find?_cons, hvfail]
        rfl
    · rw [lowerBoundLoop_node, if_neg h1]
      cases l with
      | nil =>
        show some (some a) = _
        have hvok : (decide (w ≤ (v, a).1) : Bool) = true := by
          simp only [decide_eq_true_eq]
          exact not_lt.mp h1
        show some (some a) = some (match (List.find? _ [] ).or
          (List.find? _ ((v, a) :: (inorderV r).zip (addrsA r))) with
          | some q => some q.2
          | none => kk)
        rw [List.find?_nil, List.find?_cons, hvok]
        rfl
      | node lval llev la lp ll lr =>
        by_cases h2 : w < v
        · show (if w < v then lowerBoundLoop root w (ATree.node lval llev la lp ll lr)
              else some (some a)) = _
          rw [if_pos h2]
          show lowerBoundLoop root w (ATree.node lval llev la lp ll lr) = _
          have haddr_t : addrsA (ATree.node v lv a p
              (ATree.node lval llev la lp ll lr) r) =
              addrsA (ATree.node lval llev la lp ll lr) ++ a :: addrsA r := rfl
          have hinf_l : List.IsInfix (addrsA (ATree.node lval llev la lp ll lr))
              (addrsA root) :=
            List.IsInfix.trans ⟨[], a :: addrsA r, by simp [haddr_t]⟩ hinf
          obtain ⟨pre, suf, hps⟩ := hinf
          rcases List.eq_nil_or_concat
              (addrsA (ATree.node lval llev la lp ll lr)) with h | ⟨ini, z, h⟩
          · exact absurd h (addrsA_ne_nil lval llev la lp ll lr)
          · have hroot_eq : addrsA root =
                (pre ++ ini) ++ z :: a :: (addrsA r ++ suf) := by
              rw [← hps, haddr_t, h, List.concat_eq_append]
              simp
            have hadj : iterIncr root z = some (some a) := by
              rw [hroot_eq] at hchain
              exact chainIncr_adj root none _ _ _ _ hchain
            have hnext_l : match (addrsA (ATree.node lval llev la lp ll lr)).getLast?
                with
                | some z' => iterIncr root z' = some (some a)
                | none => True := by
              rw [h, List.concat_eq_append, List.getLast?_concat]
              exact hadj
            rw [ihl hbl (fun u hu => hocc u (occurs_of_left v lv a p r hu))
              hinf_l (some a) hnext_l (by simp)]
            have hvok : (decide (w ≤ (v, a).1) : Bool) = true := by
              simp only [decide_eq_true_eq]
              exact le_of_lt h2
            rcases hf : ((inorderV (ATree.node lval llev la lp ll lr)).zip
                (addrsA (ATree.node lval llev la lp ll lr))).find?
                (fun q => decide (w ≤ q.1)) with - | q
            · simp [hf, List.find?_cons, hvok]
            · simp [hf]
        · show (if w < v then lowerBoundLoop root w (ATree.node lval llev la lp ll lr)
              else some (some a)) = _
          rw [if_neg h2]
          show some (some a) = _
          have hveq : v = w := le_antisymm (not_lt.mp h2) (not_lt.mp h1)
          have hflnone : ((inorderV (ATree.node lval llev la lp ll lr)).zip
              (addrsA (ATree.node lval llev la lp ll lr))).find?
              (fun q => decide (w ≤ q.1)) = none := by
            rw [List.find?_eq_none]
            intro q hq
            simp only [decide_eq_true_eq, not_le]
            exact hveq ▸ hal q.1 (pairs_val_mem hq)
          have hvok : (decide (w ≤ (v, a).1) : Bool) = true := by
            simp only [decide_eq_true_eq]
            exact not_lt.mp h1
          rw [hflnone, List.find?_cons, hvok]
          rfl

theorem lowerBoundA_spec (s : SetS) (h : WF s) (w : Int) :
    lowerBoundA s w =
      some (Option.map Prod.snd
        (((inorderV s.root).zip (addrsA s.root)).find?
          (fun q => decide (w ≤ q.1)))) := by
  obtain ⟨hbst, hps, hrp, hlt, hnd, hsz⟩ := h
  have hchain := chainIncr_whole s.root hbst hps hrp hnd
  show lowerBoundLoop s.root w s.root = _
  cases ht : s.root with
  | nil => rfl
  | node v lv a p l r =>
    rw [ht] at hbst hnd hchain
    have hnext : match (addrsA (ATree.node v lv a p l r)).getLast? with
        | some z => iterIncr (ATree.node v lv a p l r) z = some none
        | none => True := by
      rcases List.eq_nil_or_concat (addrsA (ATree.node v lv a p l r))
        with h | ⟨ini, z, h⟩
      · exact absurd h (addrsA_ne_nil v lv a p l r)
      · rw [h, List.concat_eq_append, List.getLast?_concat]
        rw [h, List.concat_eq_append] at hchain
        exact chainIncr_last _ none _ _ hchain
    rw [lbAux (ATree.node v lv a p l r) hnd w hchain _ hbst (fun u hu => hu)
      (List.infix_refl _) none hnext (by simp)]
    rcases hf : ((inorderV (ATree.node v lv a p l r)).zip
        (addrsA (ATree.node v lv a p l r))).find?
        (fun q => decide (w ≤ q.1)) with - | q
    · simp [hf]
    · simp [hf]

/-! ## Correctness of `find` -/

theorem pairs_occurs (t : ATree) : ∀ (x : Int) (b : Nat),
    (x, b) ∈ (inorderV t).zip (addrsA t) →
      ∃ lv p l r, occurs (.node x lv b p l r) t := by
  induction t with
  | nil => intro x b h; simp [inorderV, addrsA] at h
  | node v lv a p l r ihl ihr =>
    intro x b h
    rw [pairs_node, List.mem_append, List.mem_cons] at h
    rcases h with h | h | h
    · obtain ⟨lv', p', l', r', ho⟩ := ihl x b h
      exact ⟨lv', p', l', r', occurs_of_left v lv a p r ho⟩
    · rcases h
      exact ⟨lv, p, l, r, occurs_node_self v lv a p l r⟩
    · obtain ⟨lv', p', l', r', ho⟩ := ihr x b h
      exact ⟨lv', p', l', r', occurs_of_right v lv a p l ho⟩

theorem derefA_of_pair {root : ATree} (hnd : (addrsA root).Nodup)
    {x : Int} {b : Nat} (h : (x, b) ∈ (inorderV root).zip (addrsA root)) :
    derefA root b = some x := by
  obtain ⟨lv, p, l, r, ho⟩ := pairs_occurs root x b h
  have := lookupA_of_occurs hnd ho
  simp only [derefA, this]

theorem find_first_ge (w : Int) :
    ∀ (vals : List Int) (addrs : List Nat),
      vals.Pairwise (· < ·) → w ∈ vals → vals.length = addrs.length →
      ∃ b, (vals.zip addrs).find? (fun q => decide (w ≤ q.1)) = some (w, b) := by
  intro vals
  induction vals with
  | nil => intro addrs _ hmem _; simp at hmem
  | cons x xs ih =>
    intro addrs hsort hmem hlen
    cases addrs with
    | nil => simp at hlen
    | cons b bs =>
      rw [List.pairwise_cons] at hsort
      rw [List.zip_cons_cons, List.find?_cons]
      rcases List.mem_cons.mp hmem with rfl | hmem'
      · have hd : (decide (w ≤ (w, b).1) : Bool) = true := by simp
        rw [hd]
        exact ⟨b, rfl⟩
      · have hxw : x < w := hsort.1 w hmem'
        have hd : (decide (w ≤ (x, b).1) : Bool) = false := by
          simp only [decide_eq_false_iff_not, not_le]
          exact hxw
        rw [hd]
        exact ih bs hsort.2 hmem' (by simpa using hlen)

theorem findA_spec (s : SetS) (h : WF s) (w : Int) :
    (w ∈ inorderV s.root →
      ∃ b, findA s w = some (some b) ∧ derefA s.root b = some w) ∧
    (w ∉ inorderV s.root → findA s w = some none) := by
  have hlb := lowerBoundA_spec s h w
  have hnd := h.2.2.2.2.1
  have hpw := (bstB_iff_pairwise s.root).mp h.1
  constructor
  · intro hmem
    obtain ⟨b, hfind⟩ := find_first_ge w (inorderV s.root) (addrsA s.root) hpw hmem
      (by rw [length_inorderV, length_addrsA])
    have hpair : (w, b) ∈ (inorderV s.root).zip (addrsA s.root) :=
      List.mem_of_find?_eq_some hfind
    have hderef : derefA s.root b = some w := derefA_of_pair hnd hpair
    refine ⟨b, ?_, hderef⟩
    rw [hfind] at hlb
    show (match lowerBoundA s w with
      | some (some a) =>
        match derefA s.root a with
        | some v => if ¬v < w ∧ ¬w < v then some (some a) else some none
        | none => none
      | other => other) = some (some b)
    rw [hlb]
    show (match derefA s.root b with
      | some v => if ¬v < w ∧ ¬w < v then some (some b) else some none
      | none => none) = some (some b)
    rw [hderef]
    show (if ¬w < w ∧ ¬w < w then some (some b) else some none) = some (some b)
    rw [if_pos ⟨lt_irrefl w, lt_irrefl w⟩]
  · intro hmem
    show (match lowerBoundA s w with
      | some (some a) =>
        match derefA s.root a with
        | some v => if ¬v < w ∧ ¬w < v then some (some a) else some none
        | none => none
      | other => other) = some none
    rcases hf : ((inorderV s.root).zip (addrsA s.root)).find?
        (fun q => decide (w ≤ q.1)) with - | q
    · rw [hf] at hlb
      rw [hlb]
      rfl
    · rcases q with ⟨x, b⟩
      rw [hf] at hlb
      rw [hlb]
      have hderef : derefA s.root b = some x :=
        derefA_of_pair hnd (List.mem_of_find?_eq_some hf)
      have hge : w ≤ x := by simpa using List.find?_some hf
      have hxval : x ∈ inorderV s.root :=
        pairs_val_mem (List.mem_of_find?_eq_some hf)
      have hne : x ≠ w := fun he => hmem (he ▸ hxval)
      have hwx : w < x := lt_of_le_of_ne hge (Ne.symm hne)
      show (match derefA s.root b with
        | some v => if ¬v < w ∧ ¬w < v then some (some b) else some none
        | none => none) = some none
      rw [hderef]
      show (if ¬x < w ∧ ¬w < x then some (some b) else some none) = some none
      rw [if_neg (by simp [hwx])]

/-- C6: for every reachable set, `lower_bound(w)` returns the position of
the first in-order element ≥ w (as the address paired with that value in
the in-order value/address listing), or the end sentinel when no element
is ≥ w; the outer `some` records that no invalid access occurs. -/
theorem claim_C6 (s : SetS) (hr : Reachable s) (w : Int) :
    lowerBoundA s w =
      some (Option.map Prod.snd
        (((inorderV s.root).zip (addrsA s.root)).find?
          (fun q => decide (w ≤ q.1)))) :=
  lowerBoundA_spec s (Reachable_WF hr) w

/-- Witness for C6: `lower_bound(4)` on the reachable set `{1,3,5,8}`
(and, by evaluation, it lands on the node holding 5). -/
theorem claim_C6_witness :
    lowerBoundA (applyOps [(true,1),(true,3),(true,5),(true,8)]) 4 =
      some (Option.map Prod.snd
        (((inorderV (applyOps [(true,1),(true,3),(true,5),(true,8)]).root).zip
          (addrsA (applyOps [(true,1),(true,3),(true,5),(true,8)]).root)).find?
          (fun q => decide ((4:Int) ≤ q.1)))) :=
  claim_C6 _ (Reachable_applyOps _) 4

/-- C8: on every reachable set, erasing an absent value and inserting a
duplicate are complete no-ops (size and in-order sequence unchanged), and
`find`/`lower_bound` with no match return the end sentinel (`some none`);
all four are total functions — nothing is signalled as a failure. -/
theorem claim_C8 (s : SetS) (hr : Reachable s) (v w u : Int) :
    (v ∉ inorderV s.root →
      (serase s v).ssize = s.ssize ∧
      inorderV (serase s v).root = inorderV s.root) ∧
    (v ∈ inorderV s.root →
      (sinsert s v).ssize = s.ssize ∧
      inorderV (sinsert s v).root = inorderV s.root) ∧
    (w ∉ inorderV s.root → findA s w = some none) ∧
    ((∀ y ∈ inorderV s.root, y < u) → lowerBoundA s u = some none) := by
  obtain ⟨hbst, hps, hrp, hlt, hnd, hsz⟩ := Reachable_WF hr
  have hpw := (bstB_iff_pairwise s.root).mp hbst
  refine ⟨?_, ?_, ?_, ?_⟩
  · intro hmem
    obtain ⟨hio, hszo⟩ := EraseN_val s.root v s.ctr s.ssize hbst
    constructor
    · show (EraseN s.root v s.ctr s.ssize).2.2 = s.ssize
      rw [hszo, if_neg hmem]
    · show inorderV (EraseN s.root v s.ctr s.ssize).1 = inorderV s.root
      rw [hio, remV_eq_self hmem]
  · intro hmem
    obtain ⟨hio, hszo⟩ := InsertN_val s.root v s.ctr s.ssize hbst
    constructor
    · show (InsertN s.root v s.ctr s.ssize).2.2 = s.ssize
      rw [hszo, if_pos hmem]
    · show inorderV (InsertN s.root v s.ctr s.ssize).1 = inorderV s.root
      rw [hio, insV_eq_self hpw hmem]
  · exact (findA_spec s (Reachable_WF hr) w).2
  · intro hall
    rw [lowerBoundA_spec s (Reachable_WF hr) u]
    have : ((inorderV s.root).zip (addrsA s.root)).find?
        (fun q => decide (u ≤ q.1)) = none := by
      rw [List.find?_eq_none]
      intro q hq
      simp only [decide_eq_true_eq, not_le]
      exact hall q.1 (pairs_val_mem hq)
    rw [this]
    rfl

/-- Witness for C8 on the reachable set `{1,3}`: erasing the absent 2 and
re-inserting the present 3 are no-ops; `find(2)` and `lower_bound(9)` are
the end sentinel. -/
theorem claim_C8_witness :
    ((2:Int) ∉ inorderV (applyOps [(true,1),(true,3)]).root →
      (serase (applyOps [(true,1),(true,3)]) 2).ssize =
        (applyOps [(true,1),(true,3)]).ssize ∧
      inorderV (serase (applyOps [(true,1),(true,3)]) 2).root =
        inorderV (applyOps [(true,1),(true,3)]).root) ∧
    ((3:Int) ∈ inorderV (applyOps [(true,1),(true,3)]).root →
      (sinsert (applyOps [(true,1),(true,3)]) 3).ssize =
        (applyOps [(true,1),(true,3)]).ssize ∧
      inorderV (sinsert (applyOps [(true,1),(true,3)]) 3).root =
        inorderV (applyOps [(true,1),(true,3)]).root) ∧
    ((2:Int) ∉ inorderV (applyOps [(true,1),(true,3)]).root →
      findA (applyOps [(true,1),(true,3)]) 2 = some none) ∧
    ((∀ y ∈ inorderV (applyOps [(true,1),(true,3)]).root, y < (9:Int)) →
      lowerBoundA (applyOps [(true,1),(true,3)]) 9 = some none) :=
  ⟨(claim_C8 _ (Reachable_applyOps _) 2 2 9).1,
   (claim_C8 _ (Reachable_applyOps _) 3 2 9).2.1,
   (claim_C8 _ (Reachable_applyOps _) 2 2 9).2.2.1,
   (claim_C8 _ (Reachable_applyOps _) 2 2 9).2.2.2⟩

/-- C9: for every reachable set and value `v`, `insert(v)` followed by
`find(v)` yields an iterator whose dereference is `v`, and `erase(v)`
followed by `find(v)` yields the end sentinel. -/
theorem claim_C9 (s : SetS) (hr : Reachable s) (v : Int) :
    (∃ b, findA (sinsert s v) v = some (some b) ∧
      derefA (sinsert s v).root b = some v) ∧
    findA (serase s v) v = some none := by
  have hWF := Reachable_WF hr
  constructor
  · have hWFi := WF_sinsert s v hWF
    have hmem : v ∈ inorderV (sinsert s v).root := by
      show v ∈ inorderV (InsertN s.root v s.ctr s.ssize).1
      rw [(InsertN_val s.root v s.ctr s.ssize hWF.1).1]
      exact (mem_insV v v _).mpr (Or.inl rfl)
    exact (findA_spec _ hWFi v).1 hmem
  · have hWFe := WF_serase s v hWF
    have hmem : v ∉ inorderV (serase s v).root := by
      show v ∉ inorderV (EraseN s.root v s.ctr s.ssize).1
      rw [(EraseN_val s.root v s.ctr s.ssize hWF.1).1]
      intro hv
      exact absurd ((mem_remV v v _).mp hv).2 (by simp)
    exact (findA_spec _ hWFe v).2 hmem

/-- Witness for C9 on the reachable set `{1,3}` with value 2. -/
theorem claim_C9_witness :
    (∃ b, findA (sinsert (applyOps [(true,1),(true,3)]) 2) 2 = some (some b) ∧
      derefA (sinsert (applyOps [(true,1),(true,3)]) 2).root b = some 2) ∧
    findA (serase (applyOps [(true,1),(true,3)]) 2) 2 = some none :=
  claim_C9 _ (Reachable_applyOps _) 2

end AA
